import Mathlib

/-!
Verification of the mimic record/replay proxy (Greybox-Labs/mimic).

This file gives a shallow embedding, in Lean, of the parts of the Go source
that the verified claims are about, and proves (or refutes) each claim over
that embedding:

* the SQLite-backed store (`storage/database.go`): `RecordInteraction`,
  `getNextSequenceNumber`, `RecordStreamChunks`;
* the mock engine (`mock/grpc_mock_router.go`): sequential candidate
  selection, fuzzy JSON matching with UUID normalization, header matching
  with redaction, the not-found response;
* the replay engine (`replay/replay_engine.go`): response validation
  strategies and the aggregated report;
* the SSE codec (`proxy/sse_handler.go`): `ParseSSEEvent`, `ReadChunk`,
  `ReadAllChunks`.

Go byte slices and strings are modelled as `List Char` or `String`;
machine integers as `Int`/`Nat` (no arithmetic here comes near overflow);
wall-clock time as an abstract `Nat` tick supplied by the caller; fallible
operations return `Except` or pair their result with the unchanged state.
-/

namespace Mimic

/-! ## Store data model (storage/database.go, storage/models.go)

An `Interaction` row of the `interactions` table.  The `request_id` column
carries a UNIQUE constraint; `id` is the AUTOINCREMENT primary key. -/

structure Interaction where
  id : Nat
  sessionID : Nat
  requestID : String
  protocol : String
  method : String
  endpoint : String
  requestHeaders : String
  requestBody : String
  responseStatus : Int
  responseHeaders : String
  responseBody : String
  timestamp : Nat
  sequenceNumber : Int
  metadata : String
  isStreaming : Bool
  deriving Repr, DecidableEq

/-- The mutable state of the `interactions` table: stored rows plus the next
AUTOINCREMENT id (`LastInsertId` returns the id assigned to an insert). -/
structure Database where
  interactions : List Interaction
  nextId : Nat
  deriving Repr, DecidableEq

/-- SQL `COALESCE(MAX(xs), 0)`: the maximum of the column values, or `0`
when the result set is empty. -/
def sqlMaxCoalesce : List Int → Int
  | [] => 0
  | h :: t => t.foldl max h

/-- Rows of the `interactions` table matching `session_id = sid AND
endpoint = ep` (the WHERE clause of `getNextSequenceNumber`). -/
def rowsFor (db : Database) (sid : Nat) (ep : String) : List Interaction :=
  db.interactions.filter (fun r => r.sessionID = sid && r.endpoint = ep)

/-- `Database.getNextSequenceNumber`: `SELECT COALESCE(MAX(sequence_number), 0) + 1
FROM interactions WHERE session_id = ? AND endpoint = ?`. -/
def getNextSequenceNumber (db : Database) (sid : Nat) (ep : String) : Int :=
  sqlMaxCoalesce ((rowsFor db sid ep).map (·.sequenceNumber)) + 1

/-- `Database.RecordInteraction`: inside a transaction, compute the next
sequence number for the interaction's `(session, endpoint)`, set the
sequence number and `timestamp = time.Now()` (the caller supplies the
current tick `now`), insert the row, and populate the interaction's `id`
from `LastInsertId`.  The insert fails — and the transaction rolls back,
leaving the table unchanged — exactly when the UNIQUE constraint on
`request_id` is violated, i.e. when some stored row already carries the
same `request_id`. -/
def RecordInteraction (db : Database) (itx : Interaction) (now : Nat) :
    Database × Except Unit Interaction :=
  let seq := getNextSequenceNumber db itx.sessionID itx.endpoint
  let row : Interaction :=
    { itx with sequenceNumber := seq, timestamp := now, id := db.nextId }
  if db.interactions.any (fun r => r.requestID = itx.requestID) then
    (db, .error ())
  else
    ({ interactions := db.interactions ++ [row], nextId := db.nextId + 1 }, .ok row)

lemma le_foldl_max (t : List Int) (h : Int) : h ≤ t.foldl max h := by
  induction t generalizing h with
  | nil => simp
  | cons a t ih => exact le_trans (le_max_left h a) (ih (max h a))

lemma foldl_max_le {t : List Int} {x : Int} (h : Int) (hx : x = h ∨ x ∈ t) :
    x ≤ t.foldl max h := by
  induction t generalizing h with
  | nil => simp at hx; simp [hx]
  | cons a t ih =>
    simp only [List.foldl_cons]
    rcases hx with rfl | hx'
    · exact le_trans (le_max_left x a) (le_foldl_max t _)
    · rcases List.mem_cons.1 hx' with rfl | hx''
      · exact le_trans (le_max_right h x) (le_foldl_max t _)
      · exact ih (max h a) (Or.inr hx'')

lemma foldl_max_attained (t : List Int) (h : Int) :
    t.foldl max h = h ∨ t.foldl max h ∈ t := by
  induction t generalizing h with
  | nil => exact Or.inl rfl
  | cons a t ih =>
    simp only [List.foldl_cons]
    rcases ih (max h a) with heq | hmem
    · rcases max_choice h a with hc | hc
      · exact Or.inl (by rw [heq, hc])
      · exact Or.inr (List.mem_cons.2 (Or.inl (by rw [heq, hc])))
    · exact Or.inr (List.mem_cons.2 (Or.inr hmem))

lemma sqlMaxCoalesce_mem_le {xs : List Int} {x : Int} (hx : x ∈ xs) :
    x ≤ sqlMaxCoalesce xs := by
  cases xs with
  | nil => cases hx
  | cons h t => exact foldl_max_le h (List.mem_cons.1 hx)

lemma sqlMaxCoalesce_attained {xs : List Int} (hne : xs ≠ []) :
    sqlMaxCoalesce xs ∈ xs := by
  cases xs with
  | nil => exact absurd rfl hne
  | cons h t =>
    rcases foldl_max_attained t h with heq | hmem
    · show t.foldl max h ∈ h :: t
      rw [heq]
      exact List.mem_cons_self _ _
    · exact List.mem_cons.2 (Or.inr hmem)

/-- C1.  Whenever `RecordInteraction` succeeds on an interaction with
session `S` and endpoint `E`, the transaction assigned
`sequence_number = (max existing sequence_number among stored interactions
of (S, E), or 0 if none) + 1`, set the interaction's timestamp to the
current time, appended exactly the one new row, and populated the
interaction's id; and the call fails (leaving the table unchanged) when
the interaction's `request_id` equals the `request_id` of any
already-stored interaction. -/
theorem recordInteraction_correct (db : Database) (itx : Interaction) (now : Nat) :
    ((∃ r ∈ db.interactions, r.requestID = itx.requestID) →
      RecordInteraction db itx now = (db, .error ())) ∧
    ((∀ r ∈ db.interactions, r.requestID ≠ itx.requestID) →
      ∃ row : Interaction,
        RecordInteraction db itx now =
          ({ interactions := db.interactions ++ [row], nextId := db.nextId + 1 }, .ok row) ∧
        row.timestamp = now ∧
        row.id = db.nextId ∧
        row = { itx with sequenceNumber := row.sequenceNumber,
                         timestamp := now, id := db.nextId } ∧
        (rowsFor db itx.sessionID itx.endpoint = [] → row.sequenceNumber = 1) ∧
        (rowsFor db itx.sessionID itx.endpoint ≠ [] →
          ∃ m ∈ rowsFor db itx.sessionID itx.endpoint,
            row.sequenceNumber = m.sequenceNumber + 1 ∧
            ∀ r ∈ rowsFor db itx.sessionID itx.endpoint,
              r.sequenceNumber ≤ m.sequenceNumber)) := by
  constructor
  · intro ⟨r, hr, hid⟩
    have hany : db.interactions.any (fun r => r.requestID = itx.requestID) = true := by
      rw [List.any_eq_true]
      exact ⟨r, hr, by simp [hid]⟩
    simp [RecordInteraction, hany]
  · intro hnone
    have hany : db.interactions.any (fun r => r.requestID = itx.requestID) = false := by
      rw [List.any_eq_false]
      intro r hr
      simpa using hnone r hr
    refine ⟨{ itx with sequenceNumber := getNextSequenceNumber db itx.sessionID itx.endpoint,
                       timestamp := now, id := db.nextId }, ?_, rfl, rfl, rfl, ?_, ?_⟩
    · simp [RecordInteraction, hany]
    · intro hempty
      simp [getNextSequenceNumber, hempty, sqlMaxCoalesce]
    · intro hne
      have hmapne : (rowsFor db itx.sessionID itx.endpoint).map (·.sequenceNumber) ≠ [] := by
        simpa using hne
      obtain ⟨m, hm, hmax⟩ :=
        List.mem_map.1 (sqlMaxCoalesce_attained hmapne)
      refine ⟨m, hm, ?_, ?_⟩
      · simp [getNextSequenceNumber, hmax]
      · intro r hr
        have := sqlMaxCoalesce_mem_le
          (List.mem_map.2 ⟨r, hr, rfl⟩ :
            r.sequenceNumber ∈ (rowsFor db itx.sessionID itx.endpoint).map (·.sequenceNumber))
        rw [← hmax] at this
        exact this

/-- A concrete stored row / argument row for witnesses. -/
def sampleInteraction (rid : String) (sid : Nat) (ep : String) (seq : Int) : Interaction :=
  { id := 0, sessionID := sid, requestID := rid, protocol := "REST", method := "GET",
    endpoint := ep, requestHeaders := "", requestBody := "", responseStatus := 200,
    responseHeaders := "", responseBody := "", timestamp := 0, sequenceNumber := seq,
    metadata := "", isStreaming := false }

def db1 : Database :=
  { interactions := [sampleInteraction "a" 1 "/x" 4], nextId := 2 }

def itx1 : Interaction := sampleInteraction "b" 1 "/x" 0

def itxDup : Interaction := sampleInteraction "a" 1 "/x" 0

/-- Witness for C1: a fresh `request_id` is recorded with sequence number
`max + 1`, and a duplicated `request_id` makes the call fail. -/
theorem recordInteraction_correct_witness :
    ((∀ r ∈ db1.interactions, r.requestID ≠ itx1.requestID) ∧
      ∃ row : Interaction,
        RecordInteraction db1 itx1 7 =
          ({ interactions := db1.interactions ++ [row], nextId := db1.nextId + 1 }, .ok row) ∧
        row.timestamp = 7 ∧
        row.id = db1.nextId ∧
        row = { itx1 with sequenceNumber := row.sequenceNumber,
                          timestamp := 7, id := db1.nextId } ∧
        (rowsFor db1 itx1.sessionID itx1.endpoint = [] → row.sequenceNumber = 1) ∧
        (rowsFor db1 itx1.sessionID itx1.endpoint ≠ [] →
          ∃ m ∈ rowsFor db1 itx1.sessionID itx1.endpoint,
            row.sequenceNumber = m.sequenceNumber + 1 ∧
            ∀ r ∈ rowsFor db1 itx1.sessionID itx1.endpoint,
              r.sequenceNumber ≤ m.sequenceNumber)) ∧
    ((∃ r ∈ db1.interactions, r.requestID = itxDup.requestID) ∧
      RecordInteraction db1 itxDup 7 = (db1, .error ())) :=
  ⟨⟨by decide, (recordInteraction_correct db1 itx1 7).2 (by decide)⟩,
   ⟨by decide, (recordInteraction_correct db1 itxDup 7).1 (by decide)⟩⟩

/-! ## Stream chunks (storage/database.go, storage/database_test.go)

One row of the `stream_chunks` table. -/

structure StreamChunk where
  id : Nat
  interactionID : Nat
  chunkIndex : Int
  data : String
  timestamp : Nat
  timeDelta : Int
  deriving Repr, DecidableEq

/-- One per-row `INSERT INTO stream_chunks …` inside an open transaction:
append the row to the transaction's view, or fail.  Whether a given row's
insert errors is abstracted by the oracle `insertFails` (in SQLite this
would be a constraint violation or I/O error). -/
def insertChunksTx (tx : List StreamChunk) :
    List StreamChunk → (StreamChunk → Bool) → Except Unit (List StreamChunk)
  | [], _ => .ok tx
  | c :: rest, insertFails =>
    if insertFails c then .error () else insertChunksTx (tx ++ [c]) rest insertFails

/-- Modelled from the spec: `Database.RecordStreamChunks` — the batch
variant of chunk recording.  Its implementation is not under `src/` (only
its tests in `storage/database_test.go` and its caller
`ProxyEngine.handleStreamingResponse` are); the spec says: "all-or-nothing
batch insert in a single transaction.  An empty slice is a no-op that
succeeds.  On any per-row error the whole batch rolls back."  The function
opens one transaction, inserts every chunk, and commits; on the first
per-row error it rolls back, leaving the stored chunk set unchanged. -/
def RecordStreamChunks (store : List StreamChunk) (chunks : List StreamChunk)
    (insertFails : StreamChunk → Bool) : List StreamChunk × Except Unit Unit :=
  match insertChunksTx store chunks insertFails with
  | .ok committed => (committed, .ok ())
  | .error _ => (store, .error ())

lemma insertChunksTx_ok {chunks : List StreamChunk} {insertFails : StreamChunk → Bool}
    (h : ∀ c ∈ chunks, insertFails c = false) (tx : List StreamChunk) :
    insertChunksTx tx chunks insertFails = .ok (tx ++ chunks) := by
  induction chunks generalizing tx with
  | nil => simp [insertChunksTx]
  | cons c rest ih =>
    have hc : insertFails c = false := h c (List.mem_cons_self _ _)
    have hrest : ∀ x ∈ rest, insertFails x = false :=
      fun x hx => h x (List.mem_cons.2 (Or.inr hx))
    simp [insertChunksTx, hc, ih hrest]

lemma insertChunksTx_error {chunks : List StreamChunk} {insertFails : StreamChunk → Bool}
    (h : ∃ c ∈ chunks, insertFails c = true) (tx : List StreamChunk) :
    insertChunksTx tx chunks insertFails = .error () := by
  induction chunks generalizing tx with
  | nil => simp at h
  | cons c rest ih =>
    by_cases hc : insertFails c = true
    · simp [insertChunksTx, hc]
    · obtain ⟨x, hx, hfail⟩ := h
      rcases List.mem_cons.1 hx with rfl | hx'
      · exact absurd hfail hc
      · have hc' : insertFails c = false := by
          cases hfc : insertFails c with
          | false => rfl
          | true => exact absurd hfc hc
        simp only [insertChunksTx, hc', Bool.false_eq_true, if_false]
        exact ih ⟨x, hx', hfail⟩ _

/-- C2.  `RecordStreamChunks` is all-or-nothing in a single transaction:
an empty slice is a no-op returning success, a batch in which some per-row
insert fails leaves the stored chunk set unchanged and reports the error,
and a batch in which no insert fails appends exactly the batch. -/
theorem recordStreamChunks_atomic (store chunks : List StreamChunk)
    (insertFails : StreamChunk → Bool) :
    (RecordStreamChunks store [] insertFails = (store, .ok ())) ∧
    ((∃ c ∈ chunks, insertFails c = true) →
      RecordStreamChunks store chunks insertFails = (store, .error ())) ∧
    ((∀ c ∈ chunks, insertFails c = false) →
      RecordStreamChunks store chunks insertFails = (store ++ chunks, .ok ())) := by
  refine ⟨by simp [RecordStreamChunks, insertChunksTx], ?_, ?_⟩
  · intro h
    simp [RecordStreamChunks, insertChunksTx_error h]
  · intro h
    simp [RecordStreamChunks, insertChunksTx_ok h]

def chunk1 : StreamChunk :=
  { id := 0, interactionID := 1, chunkIndex := 0, data := "data: a", timestamp := 0,
    timeDelta := 0 }

def chunk2 : StreamChunk :=
  { id := 0, interactionID := 1, chunkIndex := 1, data := "data: b", timestamp := 0,
    timeDelta := 100 }

/-- Witness for C2: a batch whose second insert fails persists nothing; a
clean batch persists both chunks; the empty batch is a no-op. -/
theorem recordStreamChunks_atomic_witness :
    (RecordStreamChunks [] [] (fun c => c.chunkIndex = 1) = ([], .ok ())) ∧
    ((∃ c ∈ [chunk1, chunk2], (fun c : StreamChunk => decide (c.chunkIndex = 1)) c = true) ∧
      RecordStreamChunks [] [chunk1, chunk2] (fun c => c.chunkIndex = 1) = ([], .error ())) ∧
    ((∀ c ∈ [chunk1, chunk2], (fun c : StreamChunk => decide (c.chunkIndex = 2)) c = false) ∧
      RecordStreamChunks [] [chunk1, chunk2] (fun c => c.chunkIndex = 2) =
        ([chunk1, chunk2], .ok ())) :=
  ⟨(recordStreamChunks_atomic [] [] _).1,
   ⟨by decide, (recordStreamChunks_atomic [] [chunk1, chunk2] _).2.1 (by decide)⟩,
   ⟨by decide, by
      have := (recordStreamChunks_atomic [] [chunk1, chunk2]
        (fun c => decide (c.chunkIndex = 2))).2.2 (by decide)
      simpa using this⟩⟩

/-! ## Mock engine: sequential candidate selection (mock/grpc_mock_router.go)

`MockEngine.selectSequentialInteraction`: given the filtered candidates (as
returned by `FindMatchingInteractions`, ordered ascending by
`sequence_number`) and the cursor stored for the request signature
(`m.sequenceState[signature]`, zero when absent), pick the first candidate
whose sequence number exceeds the cursor; if none does, wrap around to the
first candidate.  The new cursor value is the selected candidate's
sequence number.  The function returns the selected candidate paired with
the updated cursor, or `none` for an empty candidate list. -/

def selectSequentialInteraction (interactions : List Interaction)
    (currentSequence : Int) : Option (Interaction × Int) :=
  if interactions.isEmpty then none
  else
    match interactions.find? (fun i => currentSequence < i.sequenceNumber) with
    | some i => some (i, i.sequenceNumber)
    | none =>
      match interactions with
      | [] => none
      | first :: _ => some (first, first.sequenceNumber)

/-- Candidates are "sorted strictly ascending by sequence number": the
order `FindMatchingInteractions` delivers, with per-`(session, endpoint)`
uniqueness of sequence numbers. -/
def seqSorted (l : List Interaction) : Prop :=
  l.Pairwise (fun a b => a.sequenceNumber < b.sequenceNumber)

lemma find_gt_first {l : List Interaction} {cur : Int} {i : Interaction}
    (hpw : seqSorted l)
    (hfind : l.find? (fun i => cur < i.sequenceNumber) = some i) :
    cur < i.sequenceNumber ∧
      ∀ j ∈ l, cur < j.sequenceNumber → i.sequenceNumber ≤ j.sequenceNumber := by
  induction l with
  | nil => simp [List.find?] at hfind
  | cons a t ih =>
    rcases List.pairwise_cons.1 hpw with ⟨ha, ht⟩
    by_cases hcur : cur < a.sequenceNumber
    · have : i = a := by
        rw [List.find?_cons_of_pos _ (by simpa using hcur)] at hfind
        exact (Option.some.injEq _ _ ▸ hfind).symm
      subst this
      refine ⟨hcur, ?_⟩
      intro j hj _
      rcases List.mem_cons.1 hj with rfl | hj'
      · exact le_refl _
      · exact le_of_lt (ha j hj')
    · rw [List.find?_cons_of_neg _ (by simpa using hcur)] at hfind
      obtain ⟨hlt, hmin⟩ := ih ht hfind
      refine ⟨hlt, ?_⟩
      intro j hj hjgt
      rcases List.mem_cons.1 hj with rfl | hj'
      · exact absurd hjgt hcur
      · exact hmin j hj' hjgt

lemma le_getLast_of_seqSorted {l : List Interaction} (hpw : seqSorted l)
    (hne : l ≠ []) {i : Interaction} (hi : i ∈ l) :
    i.sequenceNumber ≤ (l.getLast hne).sequenceNumber := by
  induction l with
  | nil => cases hi
  | cons a t ih =>
    rcases List.pairwise_cons.1 hpw with ⟨ha, ht⟩
    cases t with
    | nil =>
      simp at hi
      simp [hi, List.getLast]
    | cons b t' =>
      have hlast : (a :: b :: t').getLast hne = (b :: t').getLast (by simp) := by
        simp [List.getLast]
      rw [hlast]
      rcases List.mem_cons.1 hi with rfl | hi'
      · exact le_of_lt (ha _ (List.getLast_mem _))
      · exact ih ht (by simp) hi'

lemma find_gt_get {l : List Interaction} (hpw : seqSorted l) (k : Nat)
    (hk1 : k + 1 < l.length) :
    l.find? (fun i => l[k].sequenceNumber < i.sequenceNumber) = some l[k + 1] := by
  induction l generalizing k with
  | nil => simp at hk1
  | cons a t ih =>
    rcases List.pairwise_cons.1 hpw with ⟨ha, ht⟩
    cases k with
    | zero =>
      cases t with
      | nil => simp at hk1
      | cons b t' =>
        simp only [List.getElem_cons_zero, List.getElem_cons_succ]
        rw [List.find?_cons_of_neg _ (by simp)]
        rw [List.find?_cons_of_pos _ (by simpa using ha b (List.mem_cons_self _ _))]
    | succ k' =>
      have hk1' : k' + 1 < t.length := Nat.lt_of_succ_lt_succ hk1
      have hmem : t[k'] ∈ t := List.getElem_mem _
      have halt : a.sequenceNumber < t[k'].sequenceNumber := ha _ hmem
      simp only [List.getElem_cons_succ]
      rw [List.find?_cons_of_neg _ (by simpa using not_lt_of_gt halt)]
      exact ih ht k' hk1'

/-- C3.  For a non-empty candidate list ordered strictly ascending by
sequence number, `selectSequentialInteraction` picks the first candidate
whose sequence number strictly exceeds the cursor (updating the cursor to
the chosen sequence number); when no candidate exceeds the cursor it wraps
to the first candidate; hence from the cursor positioned at candidate `k`
the next call serves candidate `k+1`, from the last candidate it wraps to
the first, and the updated cursor never exceeds the maximum candidate
sequence number. -/
theorem selectSequential_cycles (l : List Interaction) (hne : l ≠ [])
    (hpw : seqSorted l) (cur : Int) :
    (∃ i : Interaction, ∃ newCur : Int,
        selectSequentialInteraction l cur = some (i, newCur) ∧ i ∈ l ∧
        newCur = i.sequenceNumber ∧
        newCur ≤ (l.getLast hne).sequenceNumber ∧
        ((∃ j ∈ l, cur < j.sequenceNumber) →
          cur < i.sequenceNumber ∧
            ∀ j ∈ l, cur < j.sequenceNumber → i.sequenceNumber ≤ j.sequenceNumber) ∧
        ((∀ j ∈ l, j.sequenceNumber ≤ cur) →
          some i = l.head? ∧ newCur = i.sequenceNumber)) ∧
    (∀ k : Nat, ∀ hk1 : k + 1 < l.length,
        selectSequentialInteraction l l[k].sequenceNumber =
          some (l[k + 1], l[k + 1].sequenceNumber)) ∧
    selectSequentialInteraction l (l.getLast hne).sequenceNumber =
      some ((l.head hne), (l.head hne).sequenceNumber) := by
  have hempty : l.isEmpty = false := by
    cases l with
    | nil => exact absurd rfl hne
    | cons a t => rfl
  refine ⟨?_, ?_, ?_⟩
  · cases hfind : l.find? (fun i => cur < i.sequenceNumber) with
    | some i =>
      obtain ⟨hlt, hmin⟩ := find_gt_first hpw hfind
      have hmem : i ∈ l := List.mem_of_find?_eq_some hfind
      refine ⟨i, i.sequenceNumber, ?_, hmem, rfl,
        le_getLast_of_seqSorted hpw hne hmem, fun _ => ⟨hlt, hmin⟩, ?_⟩
      · simp [selectSequentialInteraction, hempty, hfind]
      · intro hall
        exact absurd hlt (not_lt_of_ge (hall i hmem))
    | none =>
      cases l with
      | nil => exact absurd rfl hne
      | cons a t =>
        refine ⟨a, a.sequenceNumber, ?_, List.mem_cons_self _ _, rfl,
          le_getLast_of_seqSorted hpw hne (List.mem_cons_self _ _), ?_, ?_⟩
        · simp [selectSequentialInteraction, hfind]
        · intro ⟨j, hj, hjgt⟩
          have := List.find?_eq_none.1 hfind j hj
          simp at this
          exact absurd hjgt (not_lt_of_ge this)
        · intro _
          exact ⟨rfl, rfl⟩
  · intro k hk1
    simp [selectSequentialInteraction, hempty, find_gt_get hpw k hk1]
  · have hnone : l.find? (fun i => (l.getLast hne).sequenceNumber < i.sequenceNumber) = none := by
      rw [List.find?_eq_none]
      intro j hj
      simpa using not_lt_of_ge (le_getLast_of_seqSorted hpw hne hj)
    cases l with
    | nil => exact absurd rfl hne
    | cons a t => simp [selectSequentialInteraction, hnone, List.head]

def mockCands : List Interaction :=
  [sampleInteraction "r1" 1 "/poll" 1, sampleInteraction "r2" 1 "/poll" 2,
   sampleInteraction "r3" 1 "/poll" 3]

/-- Witness for C3: with three candidates of sequence numbers 1, 2, 3, the
cursor at candidate 0 serves candidate 1, and the cursor at the last
candidate wraps to the first. -/
theorem selectSequential_cycles_witness :
    selectSequentialInteraction mockCands (mockCands[0].sequenceNumber) =
      some (mockCands[1], mockCands[1].sequenceNumber) ∧
    selectSequentialInteraction mockCands
        ((mockCands.getLast (by decide)).sequenceNumber) =
      some (mockCands.head (by decide), (mockCands.head (by decide)).sequenceNumber) :=
  ⟨(selectSequential_cycles mockCands (by decide)
      (by decide :
        mockCands.Pairwise (fun a b => a.sequenceNumber < b.sequenceNumber)) 0).2.1
      0 (by decide),
   (selectSequential_cycles mockCands (by decide)
      (by decide :
        mockCands.Pairwise (fun a b => a.sequenceNumber < b.sequenceNumber)) 0).2.2⟩

/-! ## Mock engine: fuzzy JSON matching with UUID normalization
(mock/grpc_mock_router.go)

`uuidPattern = ^[0-9a-fA-F]{8}-[0-9a-fA-F]{4}-[0-9a-fA-F]{4}-[0-9a-fA-F]{4}-[0-9a-fA-F]{12}$`
— the regex is anchored at both ends, so `MatchString` succeeds exactly on
whole strings of the canonical 8-4-4-4-12 hexadecimal form. -/

def isHexDigit (c : Char) : Bool :=
  ('0' ≤ c && c ≤ '9') || ('a' ≤ c && c ≤ 'f') || ('A' ≤ c && c ≤ 'F')

/-- Consume exactly `n` hexadecimal digits. -/
def hexRun : Nat → List Char → Option (List Char)
  | 0, cs => some cs
  | _ + 1, [] => none
  | n + 1, c :: cs => if isHexDigit c then hexRun n cs else none

/-- Consume a literal dash. -/
def skipDash : List Char → Option (List Char)
  | '-' :: cs => some cs
  | _ => none

def uuidChain (cs : List Char) : Option (List Char) :=
  ((((((((hexRun 8 cs).bind skipDash).bind (hexRun 4)).bind skipDash).bind
      (hexRun 4)).bind skipDash).bind (hexRun 4)).bind skipDash).bind (hexRun 12)

/-- `isUUID`: `uuidPattern.MatchString s` — the anchored regex must consume
the whole string. -/
def isUUID (s : String) : Bool :=
  match uuidChain s.data with
  | some [] => true
  | _ => false

/-- `normalizeStringValue`: replace a (whole-string) UUID with the literal
placeholder before comparison. -/
def normalizeStringValue (s : String) : String :=
  if isUUID s then "UUID_PLACEHOLDER" else s

/-- A JSON value as produced by `json.Unmarshal` into `interface{}`:
`nil`, `bool`, `float64`, `string`, `[]interface{}`, or
`map[string]interface{}`.  A number is carried as its `%v` rendering
(claims here never inspect numeric values beyond that rendering); an
object is an association list with distinct keys, in the (sorted) order Go
uses when formatting a map. -/
inductive Jv where
  | null : Jv
  | boolv (b : Bool) : Jv
  | num (rep : String) : Jv
  | str (s : String) : Jv
  | arr (elems : List Jv) : Jv
  | obj (fields : List (String × Jv)) : Jv
  deriving Repr, Inhabited

/-- The mock-relevant slice of `config.MockConfig`. -/
structure MockCfg where
  matchingStrategy : String
  fuzzyIgnoreFields : List String
  deriving Repr, DecidableEq

/-- `MockEngine.shouldIgnoreField`: ignore rules apply only under the fuzzy
strategies, and only to the configured field names. -/
def shouldIgnoreField (cfg : MockCfg) (fieldName : String) : Bool :=
  if cfg.matchingStrategy ≠ "fuzzy" && cfg.matchingStrategy ≠ "fuzzy-unordered" then
    false
  else
    cfg.fuzzyIgnoreFields.contains fieldName

/-- Go map lookup `curMap[key]` on the association-list model. -/
def lookupField (fields : List (String × Jv)) (k : String) : Option Jv :=
  match fields.find? (fun f => f.1 == k) with
  | some f => some f.2
  | none => none

mutual

/-- `fmt.Sprintf("%v", v)` for an unmarshalled JSON value (used by the
matcher's default branch): `<nil>` for nil, `true`/`false`, the number's
rendering, the bare string, `[e1 e2 …]` for slices, `map[k1:v1 k2:v2 …]`
for maps (Go prints map keys in sorted order; the `obj` list is kept in
that order). -/
def goFmt : Jv → String
  | .null => "<nil>"
  | .boolv true => "true"
  | .boolv false => "false"
  | .num rep => rep
  | .str s => s
  | .arr xs => "[" ++ goFmtList xs ++ "]"
  | .obj fs => "map[" ++ goFmtFields fs ++ "]"
termination_by v => sizeOf v

def goFmtList : List Jv → String
  | [] => ""
  | [x] => goFmt x
  | x :: y :: rest => goFmt x ++ " " ++ goFmtList (y :: rest)
termination_by xs => sizeOf xs

def goFmtFields : List (String × Jv) → String
  | [] => ""
  | [(k, v)] => k ++ ":" ++ goFmt v
  | (k, v) :: f :: rest => k ++ ":" ++ goFmt v ++ " " ++ goFmtFields (f :: rest)
termination_by fs => sizeOf fs

end

mutual

/-- `MockEngine.fuzzyMatchJSONValue`: nil matches only nil; objects need
the same key count and every recorded key present in the current map with
matching value (configured ignore-fields are skipped after the presence
check); arrays need equal length and element-wise matching, or — under
`fuzzy-unordered` — a greedy first-fit pairing of recorded elements with
distinct current elements; strings compare equal after UUID
normalization; all other values (numbers, booleans) compare by their
`%v` rendering. -/
def fuzzyMatchJSONValue (cfg : MockCfg) (ignoreValues unordered : Bool) :
    Jv → Jv → Bool
  | .null, .null => true
  | .null, _ => false
  | _, .null => false
  | .obj recF, .obj curF =>
    if recF.length ≠ curF.length then false
    else fmvFields cfg ignoreValues unordered recF curF
  | .obj _, _ => false
  | .arr recX, .arr curX =>
    if recX.length ≠ curX.length then false
    else if unordered then
      fmvUnordered cfg ignoreValues unordered recX (curX.map some)
    else
      fmvList cfg ignoreValues unordered recX curX
  | .arr _, _ => false
  | .str recS, .str curS =>
    if ignoreValues then true
    else normalizeStringValue recS == normalizeStringValue curS
  | .str _, _ => false
  | recv, cur =>
    if ignoreValues then true
    else goFmt recv == goFmt cur
termination_by recv cur => (sizeOf recv, 0)

/-- Ordered array matching: element-wise. -/
def fmvList (cfg : MockCfg) (ignoreValues unordered : Bool) :
    List Jv → List Jv → Bool
  | [], [] => true
  | r :: rs, c :: cs =>
    fuzzyMatchJSONValue cfg ignoreValues unordered r c &&
      fmvList cfg ignoreValues unordered rs cs
  | _, _ => false
termination_by rs cs => (sizeOf rs, 0)

/-- Per-key object matching: each recorded key must exist in the current
map; ignored fields are then skipped, others matched recursively. -/
def fmvFields (cfg : MockCfg) (ignoreValues unordered : Bool) :
    List (String × Jv) → List (String × Jv) → Bool
  | [], _ => true
  | (k, v) :: rest, curF =>
    match lookupField curF k with
    | none => false
    | some cv =>
      (shouldIgnoreField cfg k || fuzzyMatchJSONValue cfg ignoreValues unordered v cv) &&
        fmvFields cfg ignoreValues unordered rest curF
termination_by fs cur => (sizeOf fs, 0)

/-- `MockEngine.fuzzyMatchArrayUnordered`: for each recorded element in
order, claim the first still-unmatched current element it matches
(`none` marks an already-claimed slot). -/
def fmvUnordered (cfg : MockCfg) (ignoreValues unordered : Bool) :
    List Jv → List (Option Jv) → Bool
  | [], _ => true
  | r :: rs, curs =>
    match fmvScan cfg ignoreValues unordered r curs with
    | none => false
    | some curs2 => fmvUnordered cfg ignoreValues unordered rs curs2
termination_by rs curs => (sizeOf rs, 0)

/-- Scan for the first unclaimed current element matching `r`; mark it
claimed. -/
def fmvScan (cfg : MockCfg) (ignoreValues unordered : Bool) (r : Jv) :
    List (Option Jv) → Option (List (Option Jv))
  | [] => none
  | none :: rest => (fmvScan cfg ignoreValues unordered r rest).map (none :: ·)
  | some c :: rest =>
    if fuzzyMatchJSONValue cfg ignoreValues unordered r c then some (none :: rest)
    else (fmvScan cfg ignoreValues unordered r rest).map (some c :: ·)
termination_by curs => (sizeOf r, curs.length + 1)

end

/-- `MockEngine.fuzzyMatchJSON`: entry point for body matching — both
bodies parsed as JSON objects, `ignoreValues = false`, unordered arrays
exactly under the `fuzzy-unordered` strategy. -/
def fuzzyMatchJSON (cfg : MockCfg) (recorded current : List (String × Jv)) : Bool :=
  fuzzyMatchJSONValue cfg false (cfg.matchingStrategy == "fuzzy-unordered")
    (.obj recorded) (.obj current)

mutual

/-- Rewrite every JSON *string value* (leaf of the `str` constructor) of a
value by `f`; object keys and numeric/boolean leaves are untouched.  Used
to express "replace a UUID occurring in the current request by another
UUID". -/
def mapStrings (f : String → String) : Jv → Jv
  | .null => .null
  | .boolv b => .boolv b
  | .num rep => .num rep
  | .str s => .str (f s)
  | .arr xs => .arr (mapStringsList f xs)
  | .obj fs => .obj (mapStringsFields f fs)
termination_by v => sizeOf v

def mapStringsList (f : String → String) : List Jv → List Jv
  | [] => []
  | x :: xs => mapStrings f x :: mapStringsList f xs
termination_by xs => sizeOf xs

def mapStringsFields (f : String → String) : List (String × Jv) → List (String × Jv)
  | [] => []
  | (k, v) :: rest => (k, mapStrings f v) :: mapStringsFields f rest
termination_by fs => sizeOf fs

end

/-- A `%v` rendering of a `float64` is never confusable with the strings
the matcher's normalization treats specially: it is not itself a canonical
UUID, not the placeholder literal, and does not begin like a Go-formatted
slice (`[`) or map (`m`).  (True of every actual `float64` rendering;
recorded values carrying `num` leaves are assumed well-formed in this
sense.) -/
def numReprSafe (rep : String) : Bool :=
  !isUUID rep && rep ≠ "UUID_PLACEHOLDER" &&
    rep.data.head? ≠ some '[' && rep.data.head? ≠ some 'm'

mutual

/-- Every numeric leaf of the value has a well-formed `float64`-style
rendering (see `numReprSafe`). -/
def numsSafe : Jv → Bool
  | .null => true
  | .boolv _ => true
  | .num rep => numReprSafe rep
  | .str _ => true
  | .arr xs => numsSafeList xs
  | .obj fs => numsSafeFields fs
termination_by v => sizeOf v

def numsSafeList : List Jv → Bool
  | [] => true
  | x :: xs => numsSafe x && numsSafeList xs
termination_by xs => sizeOf xs

def numsSafeFields : List (String × Jv) → Bool
  | [] => true
  | (_, v) :: rest => numsSafe v && numsSafeFields rest
termination_by fs => sizeOf fs

end

lemma mapStringsList_eq_map (f : String → String) (xs : List Jv) :
    mapStringsList f xs = xs.map (mapStrings f) := by
  induction xs with
  | nil => simp [mapStringsList]
  | cons x xs ih => simp [mapStringsList, ih]

lemma mapStringsFields_length (f : String → String) (fs : List (String × Jv)) :
    (mapStringsFields f fs).length = fs.length := by
  induction fs with
  | nil => simp [mapStringsFields]
  | cons kv rest ih =>
    obtain ⟨k, v⟩ := kv
    simp [mapStringsFields, ih]

lemma numsSafeList_mem {xs : List Jv} (h : numsSafeList xs = true) :
    ∀ x ∈ xs, numsSafe x = true := by
  induction xs with
  | nil => intro x hx; cases hx
  | cons a xs ih =>
    rw [numsSafeList, Bool.and_eq_true] at h
    intro x hx
    rcases List.mem_cons.1 hx with rfl | hx'
    · exact h.1
    · exact ih h.2 x hx'

lemma numsSafeFields_mem {fs : List (String × Jv)} (h : numsSafeFields fs = true) :
    ∀ kv ∈ fs, numsSafe kv.2 = true := by
  induction fs with
  | nil => intro kv hkv; cases hkv
  | cons kv0 rest ih =>
    obtain ⟨k, v⟩ := kv0
    rw [numsSafeFields, Bool.and_eq_true] at h
    intro kv hkv
    rcases List.mem_cons.1 hkv with rfl | hkv'
    · exact h.1
    · exact ih h.2 kv hkv'

/-- `special s`: the strings the UUID normalization treats non-trivially. -/
def special (s : String) : Prop := isUUID s = true ∨ s = "UUID_PLACEHOLDER"

lemma f_cases {f : String → String}
    (hf : ∀ s, normalizeStringValue (f s) = normalizeStringValue s) (s : String) :
    f s = s ∨ (special s ∧ special (f s)) := by
  have h := hf s
  unfold normalizeStringValue at h
  by_cases h1 : isUUID s = true
  · rw [if_pos h1] at h
    by_cases h2 : isUUID (f s) = true
    · exact Or.inr ⟨Or.inl h1, Or.inl h2⟩
    · rw [if_neg h2] at h
      exact Or.inr ⟨Or.inl h1, Or.inr h⟩
  · rw [if_neg h1] at h
    by_cases h2 : isUUID (f s) = true
    · rw [if_pos h2] at h
      exact Or.inr ⟨Or.inr h.symm, Or.inl h2⟩
    · rw [if_neg h2] at h
      exact Or.inl h

lemma ne_of_special {r s : String} (hr1 : isUUID r = false)
    (hr2 : r ≠ "UUID_PLACEHOLDER") (hs : special s) : r ≠ s := by
  rcases hs with h | h
  · intro e
    rw [e, h] at hr1
    cases hr1
  · intro e
    exact hr2 (e.trans h)

lemma ne_of_head_ne {a b : String} (h : a.data.head? ≠ b.data.head?) : a ≠ b :=
  fun e => h (by rw [e])

lemma goFmt_arr_head (xs : List Jv) : (goFmt (.arr xs)).data.head? = some '[' := by
  rw [goFmt]
  simp [String.data_append]

lemma goFmt_obj_head (fs : List (String × Jv)) :
    (goFmt (.obj fs)).data.head? = some 'm' := by
  rw [goFmt]
  simp [String.data_append]

lemma mapStrings_ne_null {f : String → String} {cur : Jv} (h : cur ≠ .null) :
    mapStrings f cur ≠ .null := by
  cases cur <;> simp_all [mapStrings]

lemma fmv_prim_boolv (cfg : MockCfg) (iv uo : Bool) (b : Bool) (cur : Jv)
    (h : cur ≠ .null) :
    fuzzyMatchJSONValue cfg iv uo (.boolv b) cur =
      if iv then true else goFmt (.boolv b) == goFmt cur := by
  cases cur <;> simp_all [fuzzyMatchJSONValue]

lemma fmv_prim_num (cfg : MockCfg) (iv uo : Bool) (rep : String) (cur : Jv)
    (h : cur ≠ .null) :
    fuzzyMatchJSONValue cfg iv uo (.num rep) cur =
      if iv then true else goFmt (.num rep) == goFmt cur := by
  cases cur <;> simp_all [fuzzyMatchJSONValue]

lemma goFmt_eq_stable {f : String → String}
    (hf : ∀ s, normalizeStringValue (f s) = normalizeStringValue s)
    {r : String} (hr1 : isUUID r = false) (hr2 : r ≠ "UUID_PLACEHOLDER")
    (hr3 : r.data.head? ≠ some '[') (hr4 : r.data.head? ≠ some 'm') (cur : Jv) :
    (r == goFmt (mapStrings f cur)) = (r == goFmt cur) := by
  cases cur with
  | null => rw [mapStrings]
  | boolv b => rw [mapStrings]
  | num rep => rw [mapStrings]
  | str s =>
    rw [mapStrings]
    show (r == goFmt (.str (f s))) = (r == goFmt (.str s))
    simp only [goFmt]
    rcases f_cases hf s with he | ⟨hs, hfs⟩
    · rw [he]
    · rw [beq_eq_false_iff_ne.2 (ne_of_special hr1 hr2 hfs),
        beq_eq_false_iff_ne.2 (ne_of_special hr1 hr2 hs)]
  | arr xs =>
    rw [mapStrings]
    have h1 : r ≠ goFmt (.arr (mapStringsList f xs)) :=
      ne_of_head_ne (by rw [goFmt_arr_head]; exact hr3)
    have h2 : r ≠ goFmt (.arr xs) :=
      ne_of_head_ne (by rw [goFmt_arr_head]; exact hr3)
    rw [beq_eq_false_iff_ne.2 h1, beq_eq_false_iff_ne.2 h2]
  | obj fs =>
    rw [mapStrings]
    have h1 : r ≠ goFmt (.obj (mapStringsFields f fs)) :=
      ne_of_head_ne (by rw [goFmt_obj_head]; exact hr4)
    have h2 : r ≠ goFmt (.obj fs) :=
      ne_of_head_ne (by rw [goFmt_obj_head]; exact hr4)
    rw [beq_eq_false_iff_ne.2 h1, beq_eq_false_iff_ne.2 h2]

lemma fmvList_stable (cfg : MockCfg) (iv uo : Bool) {f : String → String} :
    ∀ rs : List Jv,
      (∀ r ∈ rs, ∀ cur, fuzzyMatchJSONValue cfg iv uo r (mapStrings f cur) =
        fuzzyMatchJSONValue cfg iv uo r cur) →
      ∀ cs : List Jv,
        fmvList cfg iv uo rs (cs.map (mapStrings f)) = fmvList cfg iv uo rs cs := by
  intro rs
  induction rs with
  | nil =>
    intro _ cs
    cases cs <;> simp [fmvList]
  | cons r rs ih =>
    intro h cs
    cases cs with
    | nil => simp [fmvList]
    | cons c cs =>
      simp only [List.map_cons, fmvList]
      rw [h r (List.mem_cons_self _ _) c,
        ih (fun x hx => h x (List.mem_cons.2 (Or.inr hx))) cs]

lemma fmvScan_stable (cfg : MockCfg) (iv uo : Bool) {f : String → String} {r : Jv}
    (hr : ∀ cur, fuzzyMatchJSONValue cfg iv uo r (mapStrings f cur) =
      fuzzyMatchJSONValue cfg iv uo r cur) :
    ∀ curs : List (Option Jv),
      fmvScan cfg iv uo r (curs.map (Option.map (mapStrings f))) =
        (fmvScan cfg iv uo r curs).map (List.map (Option.map (mapStrings f))) := by
  intro curs
  induction curs with
  | nil => simp [fmvScan]
  | cons c rest ih =>
    cases c with
    | none =>
      cases hsc : fmvScan cfg iv uo r rest with
      | none => simp [fmvScan, ih, hsc]
      | some l => simp [fmvScan, ih, hsc]
    | some c =>
      by_cases hc : fuzzyMatchJSONValue cfg iv uo r c = true
      · simp [fmvScan, hr c, hc]
      · have hc' : fuzzyMatchJSONValue cfg iv uo r c = false :=
          Bool.not_eq_true _ ▸ (by simpa using hc)
        cases hsc : fmvScan cfg iv uo r rest with
        | none => simp [fmvScan, hr c, hc', ih, hsc]
        | some l => simp [fmvScan, hr c, hc', ih, hsc]

lemma fmvUnordered_stable (cfg : MockCfg) (iv uo : Bool) {f : String → String} :
    ∀ rs : List Jv,
      (∀ r ∈ rs, ∀ cur, fuzzyMatchJSONValue cfg iv uo r (mapStrings f cur) =
        fuzzyMatchJSONValue cfg iv uo r cur) →
      ∀ curs : List (Option Jv),
        fmvUnordered cfg iv uo rs (curs.map (Option.map (mapStrings f))) =
          fmvUnordered cfg iv uo rs curs := by
  intro rs
  induction rs with
  | nil => intro _ curs; simp [fmvUnordered]
  | cons r rs ih =>
    intro h curs
    have hscan := fmvScan_stable cfg iv uo (h r (List.mem_cons_self _ _)) curs
    cases hsc : fmvScan cfg iv uo r curs with
    | none =>
      rw [hsc] at hscan
      simp [fmvUnordered, hscan, hsc]
    | some curs2 =>
      rw [hsc] at hscan
      simp only [fmvUnordered, hscan, hsc, Option.map_some]
      exact ih (fun x hx => h x (List.mem_cons.2 (Or.inr hx))) curs2

lemma lookupField_mapStringsFields (f : String → String) (k : String) :
    ∀ curF : List (String × Jv),
      lookupField (mapStringsFields f curF) k =
        (lookupField curF k).map (mapStrings f) := by
  intro curF
  induction curF with
  | nil => simp [mapStringsFields, lookupField, List.find?]
  | cons kv rest ih =>
    obtain ⟨k0, v0⟩ := kv
    by_cases hk : k0 == k
    · simp [mapStringsFields, lookupField, List.find?, hk]
    · have hk' : (k0 == k) = false := by simpa using hk
      simp only [mapStringsFields, lookupField, List.find?, hk'] at ih ⊢
      exact ih

lemma fmvFields_stable (cfg : MockCfg) (iv uo : Bool) {f : String → String} :
    ∀ fs : List (String × Jv),
      (∀ kv ∈ fs, ∀ cur, fuzzyMatchJSONValue cfg iv uo kv.2 (mapStrings f cur) =
        fuzzyMatchJSONValue cfg iv uo kv.2 cur) →
      ∀ curF : List (String × Jv),
        fmvFields cfg iv uo fs (mapStringsFields f curF) =
          fmvFields cfg iv uo fs curF := by
  intro fs
  induction fs with
  | nil => intro _ curF; simp [fmvFields]
  | cons kv rest ih =>
    intro h curF
    obtain ⟨k, v⟩ := kv
    have hlk := lookupField_mapStringsFields f k curF
    cases hl : lookupField curF k with
    | none =>
      rw [hl] at hlk
      simp [fmvFields, hlk, hl]
    | some cv =>
      rw [hl] at hlk
      have hlk' : lookupField (mapStringsFields f curF) k = some (mapStrings f cv) := by
        simpa using hlk
      simp only [fmvFields, hlk', hl]
      rw [h ⟨k, v⟩ (List.mem_cons_self _ _) cv,
        ih (fun x hx => h x (List.mem_cons.2 (Or.inr hx))) curF]

lemma jv_sizeOf_pos (v : Jv) : 0 < sizeOf v := by
  cases v <;> simp_arith

lemma numReprSafe_parts {rep : String} (h : numReprSafe rep = true) :
    isUUID rep = false ∧ rep ≠ "UUID_PLACEHOLDER" ∧
      rep.data.head? ≠ some '[' ∧ rep.data.head? ≠ some 'm' := by
  rw [numReprSafe] at h
  simp only [Bool.and_eq_true, Bool.not_eq_true', decide_eq_true_eq] at h
  exact ⟨h.1.1.1, h.1.1.2, h.1.2, h.2⟩

lemma fmv_boolv_stable (cfg : MockCfg) (iv uo : Bool) {f : String → String}
    (hf : ∀ s, normalizeStringValue (f s) = normalizeStringValue s)
    (b : Bool) (cur : Jv) :
    fuzzyMatchJSONValue cfg iv uo (.boolv b) (mapStrings f cur) =
      fuzzyMatchJSONValue cfg iv uo (.boolv b) cur := by
  have hparts : isUUID (goFmt (.boolv b)) = false ∧
      goFmt (.boolv b) ≠ "UUID_PLACEHOLDER" ∧
      (goFmt (.boolv b)).data.head? ≠ some '[' ∧
      (goFmt (.boolv b)).data.head? ≠ some 'm' := by
    cases b <;> simp only [goFmt] <;> exact ⟨by decide, by decide, by decide, by decide⟩
  by_cases hnull : cur = .null
  · subst hnull
    simp [fuzzyMatchJSONValue, mapStrings]
  · rw [fmv_prim_boolv cfg iv uo b (mapStrings f cur) (mapStrings_ne_null hnull),
      fmv_prim_boolv cfg iv uo b cur hnull]
    by_cases hiv : iv
    · simp [hiv]
    · simp only [Bool.not_eq_true] at hiv
      simp only [hiv, Bool.false_eq_true, if_false]
      exact goFmt_eq_stable hf hparts.1 hparts.2.1 hparts.2.2.1 hparts.2.2.2 cur

lemma fmv_num_stable (cfg : MockCfg) (iv uo : Bool) {f : String → String}
    (hf : ∀ s, normalizeStringValue (f s) = normalizeStringValue s)
    {rep : String} (hsafe : numReprSafe rep = true) (cur : Jv) :
    fuzzyMatchJSONValue cfg iv uo (.num rep) (mapStrings f cur) =
      fuzzyMatchJSONValue cfg iv uo (.num rep) cur := by
  obtain ⟨h1, h2, h3, h4⟩ := numReprSafe_parts hsafe
  have hg : goFmt (.num rep) = rep := by rw [goFmt]
  by_cases hnull : cur = .null
  · subst hnull
    simp [fuzzyMatchJSONValue, mapStrings]
  · rw [fmv_prim_num cfg iv uo rep (mapStrings f cur) (mapStrings_ne_null hnull),
      fmv_prim_num cfg iv uo rep cur hnull]
    by_cases hiv : iv
    · simp [hiv]
    · simp only [Bool.not_eq_true] at hiv
      simp only [hiv, Bool.false_eq_true, if_false, hg]
      exact goFmt_eq_stable hf h1 h2 h3 h4 cur

/-- Replacing string values of the current request by strings with the
same UUID-normalized form never changes the outcome of
`fuzzyMatchJSONValue` (numeric leaves of the recorded value are assumed to
carry genuine `float64` renderings, `numsSafe`). -/
lemma fmv_mapStrings (cfg : MockCfg) (iv uo : Bool) {f : String → String}
    (hf : ∀ s, normalizeStringValue (f s) = normalizeStringValue s) :
    ∀ (n : Nat) (recv : Jv), sizeOf recv ≤ n → numsSafe recv = true →
      ∀ cur, fuzzyMatchJSONValue cfg iv uo recv (mapStrings f cur) =
        fuzzyMatchJSONValue cfg iv uo recv cur := by
  intro n
  induction n with
  | zero =>
    intro recv hle
    exact absurd hle (by have := jv_sizeOf_pos recv; omega)
  | succ n ih =>
    intro recv hle hsafe cur
    cases recv with
    | null => cases cur <;> simp [fuzzyMatchJSONValue, mapStrings]
    | boolv b => exact fmv_boolv_stable cfg iv uo hf b cur
    | num rep =>
      rw [numsSafe] at hsafe
      exact fmv_num_stable cfg iv uo hf hsafe cur
    | str s =>
      cases cur <;> simp [fuzzyMatchJSONValue, mapStrings, hf]
    | arr xs =>
      have hsz : sizeOf xs < sizeOf (Jv.arr xs) := by simp_arith
      have hx : ∀ x ∈ xs, ∀ c, fuzzyMatchJSONValue cfg iv uo x (mapStrings f c) =
          fuzzyMatchJSONValue cfg iv uo x c := by
        intro x hxmem c
        have hxsz : sizeOf x < sizeOf xs := List.sizeOf_lt_of_mem hxmem
        have hsafe' : numsSafe x = true := by
          rw [numsSafe] at hsafe
          exact numsSafeList_mem hsafe x hxmem
        exact ih x (by omega) hsafe' c
      cases cur with
      | arr cs =>
        have hmap : mapStrings f (.arr cs) = .arr (cs.map (mapStrings f)) := by
          rw [mapStrings, mapStringsList_eq_map]
        rw [hmap]
        simp only [fuzzyMatchJSONValue, List.length_map]
        by_cases hlen : xs.length ≠ cs.length
        · simp [hlen]
        · simp only [hlen, if_false]
          by_cases huo : uo = true
          · subst huo
            simp only [if_true]
            have hmaps : (cs.map (mapStrings f)).map some =
                (cs.map some).map (Option.map (mapStrings f)) := by
              simp [List.map_map, Function.comp]
            rw [hmaps]
            exact fmvUnordered_stable cfg iv true xs hx (cs.map some)
          · simp only [Bool.not_eq_true] at huo
            subst huo
            simp only [Bool.false_eq_true, if_false]
            exact fmvList_stable cfg iv false xs hx cs
      | null => simp [fuzzyMatchJSONValue, mapStrings]
      | boolv b => simp [fuzzyMatchJSONValue, mapStrings]
      | num rep => simp [fuzzyMatchJSONValue, mapStrings]
      | str s => simp [fuzzyMatchJSONValue, mapStrings]
      | obj fs => simp [fuzzyMatchJSONValue, mapStrings]
    | obj fs =>
      have hx : ∀ kv ∈ fs, ∀ c, fuzzyMatchJSONValue cfg iv uo kv.2 (mapStrings f c) =
          fuzzyMatchJSONValue cfg iv uo kv.2 c := by
        intro kv hkvmem c
        have hkvsz : sizeOf kv < sizeOf fs := List.sizeOf_lt_of_mem hkvmem
        have hvsz : sizeOf kv.2 < sizeOf kv := by
          obtain ⟨k, v⟩ := kv
          simp_arith
        have hsafe' : numsSafe kv.2 = true := by
          rw [numsSafe] at hsafe
          exact numsSafeFields_mem hsafe kv hkvmem
        have : sizeOf fs < sizeOf (Jv.obj fs) := by simp_arith
        exact ih kv.2 (by omega) hsafe' c
      cases cur with
      | obj curF =>
        rw [mapStrings]
        simp only [fuzzyMatchJSONValue, mapStringsFields_length]
        by_cases hlen : fs.length ≠ curF.length
        · simp [hlen]
        · simp only [hlen, if_false]
          exact fmvFields_stable cfg iv uo fs hx curF
      | null => simp [fuzzyMatchJSONValue, mapStrings]
      | boolv b => simp [fuzzyMatchJSONValue, mapStrings]
      | num rep => simp [fuzzyMatchJSONValue, mapStrings]
      | str s => simp [fuzzyMatchJSONValue, mapStrings]
      | arr cs => simp [fuzzyMatchJSONValue, mapStrings]

/-- C4 (counterexample to the claim as stated).  The fuzzy matching
strategies are NOT sensitive to every change of a non-UUID string: with
the recorded string value being the literal `UUID_PLACEHOLDER`, changing
the current (non-UUID) string `UUID_PLACEHOLDER` to a canonical UUID — a
different string — still matches, because normalization collapses both to
the placeholder. -/
theorem fuzzyMatch_nonUUID_change_counterexample :
    isUUID "UUID_PLACEHOLDER" = false ∧
    ("11111111-2222-3333-4444-555555555555" : String) ≠ "UUID_PLACEHOLDER" ∧
    fuzzyMatchJSONValue ⟨"fuzzy", []⟩ false false
      (.str "UUID_PLACEHOLDER") (.str "UUID_PLACEHOLDER") = true ∧
    fuzzyMatchJSONValue ⟨"fuzzy", []⟩ false false
      (.str "UUID_PLACEHOLDER") (.str "11111111-2222-3333-4444-555555555555") = true := by
  refine ⟨by decide, by decide, ?_, ?_⟩ <;>
    · simp only [fuzzyMatchJSONValue, Bool.false_eq_true, if_false]
      decide

/-- C4 (amended).  Under the fuzzy matching strategies, two JSON string
values compare equal exactly when they are equal after UUID normalization
(a whole string of the canonical UUID form, case-insensitive, maps to the
literal `UUID_PLACEHOLDER` before comparison); hence replacing string
values of the current request by strings of the same normalized form — in
particular swapping any UUID string value for another canonical UUID —
never changes the match outcome; and changing a non-UUID string value to
a different non-UUID string makes the match fail (changing it to a UUID
can still match when the recorded value normalizes to the placeholder —
see the counterexample). -/
theorem fuzzyMatch_uuid_normalization :
    (∀ (cfg : MockCfg) (uo : Bool) (recS curS : String),
      fuzzyMatchJSONValue cfg false uo (.str recS) (.str curS) =
        (normalizeStringValue recS == normalizeStringValue curS)) ∧
    (∀ (cfg : MockCfg) (uo : Bool) (f : String → String),
      (∀ s, normalizeStringValue (f s) = normalizeStringValue s) →
      ∀ recv : Jv, numsSafe recv = true →
      ∀ cur : Jv, fuzzyMatchJSONValue cfg false uo recv (mapStrings f cur) =
        fuzzyMatchJSONValue cfg false uo recv cur) ∧
    (∀ (cfg : MockCfg) (uo : Bool) (recS curS : String),
      isUUID recS = false → isUUID curS = false → recS ≠ curS →
      fuzzyMatchJSONValue cfg false uo (.str recS) (.str curS) = false) := by
  refine ⟨?_, ?_, ?_⟩
  · intro cfg uo recS curS
    simp [fuzzyMatchJSONValue]
  · intro cfg uo f hf recv hsafe cur
    exact fmv_mapStrings cfg false uo hf (sizeOf recv) recv le_rfl hsafe cur
  · intro cfg uo recS curS h1 h2 hne
    simp only [fuzzyMatchJSONValue, Bool.false_eq_true, if_false]
    rw [normalizeStringValue, normalizeStringValue, if_neg (by simp [h1]),
      if_neg (by simp [h2])]
    exact beq_eq_false_iff_ne.2 hne

/-- Concrete UUIDs and the swap function for the C4 witness. -/
def uuidA : String := "11111111-2222-3333-4444-555555555555"

def uuidB : String := "ffffffff-ffff-ffff-ffff-ffffffffffff"

def swapUUID (s : String) : String :=
  if s = uuidA then uuidB else s

def recEx : Jv :=
  .obj [("id", .str uuidA), ("name", .str "A"), ("n", .num "42")]

/-- Witness for C4 (amended): the string rule at a concrete pair, the
swap of `uuidA` for `uuidB` inside a concrete request body leaving the
match outcome unchanged, and a concrete non-UUID change failing. -/
theorem fuzzyMatch_uuid_normalization_witness :
    (fuzzyMatchJSONValue ⟨"fuzzy", []⟩ false false (.str "abc") (.str "abc") =
      (normalizeStringValue "abc" == normalizeStringValue "abc")) ∧
    (fuzzyMatchJSONValue ⟨"fuzzy", []⟩ false false recEx (mapStrings swapUUID recEx) =
      fuzzyMatchJSONValue ⟨"fuzzy", []⟩ false false recEx recEx) ∧
    (fuzzyMatchJSONValue ⟨"fuzzy", []⟩ false false (.str "A") (.str "B") = false) :=
  ⟨fuzzyMatch_uuid_normalization.1 ⟨"fuzzy", []⟩ false "abc" "abc",
   fuzzyMatch_uuid_normalization.2.1 ⟨"fuzzy", []⟩ false swapUUID
     (by
       intro s
       rw [swapUUID]
       by_cases h : s = uuidA
       · rw [if_pos h, h]
         decide
       · rw [if_neg h])
     recEx
     (by
       simp only [recEx, numsSafe, numsSafeFields, Bool.and_eq_true]
       decide)
     recEx,
   fuzzyMatch_uuid_normalization.2.2 ⟨"fuzzy", []⟩ false "A" "B"
     (by decide) (by decide) (by decide)⟩

/-! ## Mock engine: the not-found response (mock/grpc_mock_router.go,
config `NotFoundResponseConfig`) -/

/-- `config.NotFoundResponseConfig`: `mock.not_found_response.{status, body}`. -/
structure NotFoundResponseConfig where
  status : Int
  body : List (String × Jv)
  deriving Repr

/-- `MockEngine.sendNotFoundResponse`: sets `Content-Type:
application/json`, writes status `404` and the JSON body
`map[error: Recording not found]`.  The configuration argument is what the
spec says should be served; the current engine does not consult it.
Result: (status, Content-Type, body). -/
def sendNotFoundResponse (cfg : NotFoundResponseConfig) :
    Int × String × List (String × Jv) :=
  (404, "application/json", [("error", .str "Recording not found")])

/-- Modelled from the spec: the behavior claim C5 asserts — "return the
configured not-found response verbatim (the status and body from
mock.not_found_response)". -/
def sendNotFoundResponseSpec (cfg : NotFoundResponseConfig) :
    Int × String × List (String × Jv) :=
  (cfg.status, "application/json", cfg.body)

/-- The mock HTTP dispatch on the not-found paths of
`MockEngine.handleRequest`: with no candidate (or none selectable) the
engine answers with `sendNotFoundResponse`; otherwise with the selected
interaction and updated cursor. -/
def handleMockSelection (filtered : List Interaction) (cur : Int)
    (nf : NotFoundResponseConfig) :
    (Int × String × List (String × Jv)) ⊕ (Interaction × Int) :=
  match selectSequentialInteraction filtered cur with
  | none => .inl (sendNotFoundResponse nf)
  | some sel => .inr sel

/-- C5 (counterexample to the claim as stated).  With
`mock.not_found_response` configured to status 500 and body
`map[error: gone]`, the engine still answers 404 with the built-in body:
the configured response is not served. -/
theorem sendNotFound_counterexample :
    (sendNotFoundResponse ⟨500, [("error", .str "gone")]⟩).1 = 404 ∧
    (sendNotFoundResponseSpec ⟨500, [("error", .str "gone")]⟩).1 = 500 ∧
    (404 : Int) ≠ 500 :=
  ⟨rfl, rfl, by decide⟩

/-- C5 (amended).  Whenever a mock HTTP request has no matching recorded
candidate, the engine returns a fixed not-found response — status 404
with JSON body `error: Recording not found` — regardless of the
`mock.not_found_response` configuration, which the current engine does
not consult; this coincides with the configured response exactly at the
default configuration. -/
theorem sendNotFound_fixed (nf : NotFoundResponseConfig) (cur : Int) :
    handleMockSelection [] cur nf =
      .inl (404, "application/json", [("error", .str "Recording not found")]) ∧
    (∀ cfg : NotFoundResponseConfig,
      sendNotFoundResponse cfg =
        (404, "application/json", [("error", .str "Recording not found")])) ∧
    sendNotFoundResponseSpec ⟨404, [("error", .str "Recording not found")]⟩ =
      (404, "application/json", [("error", .str "Recording not found")]) :=
  ⟨by simp [handleMockSelection, selectSequentialInteraction, sendNotFoundResponse],
   fun _ => rfl, rfl⟩

/-! ## Mock engine: header matching and redaction (mock/grpc_mock_router.go)

`MockEngine.matchesHeaders` parses the recorded header JSON into a
`map[string]string`, converts the live `http.Header` to the same shape
(multi-values joined with ", "), under the fuzzy strategies deletes a
fixed set of dynamic headers from both sides, re-serializes both maps
with `json.Marshal` (which emits map keys in sorted order), applies the
engine's redaction patterns (`pattern.ReplaceAllString(s, "[REDACTED]")`)
to both serializations, and compares the two strings.  Header maps are
modelled as sorted association lists (the unmarshal/re-marshal round
trip), serialization by `marshalHeaders` (escaping-free inputs), and each
compiled regex by the `String → String` function it denotes. -/

def quoteJSON (s : String) : String := "\"" ++ s ++ "\""

def marshalHeaders (m : List (String × String)) : String :=
  "\x7b" ++
    String.intercalate ","
      (m.map (fun kv => quoteJSON kv.1 ++ ":" ++ quoteJSON kv.2)) ++
    "\x7d"

/-- `redactSensitiveData`: apply every compiled redact pattern in turn. -/
def redactSensitiveData (patterns : List (String → String)) (data : String) : String :=
  patterns.foldl (fun result pattern => pattern result) data

/-- The pattern list the mock engine's REST handler is constructed with:
`NewMockEngineWithBroadcaster` calls `proxy.NewRESTHandler([]string{})`
("Use empty redact patterns for now"), so `GetRedactPatterns()` is empty
in mock mode even when `recording.redact_patterns` is configured. -/
def mockEngineRedactPatterns : List (String → String) := []

def dynamicHeaders : List String :=
  ["Content-Length", "Content-Md5", "Date", "If-None-Match", "If-Modified-Since"]

def deleteKeys (m : List (String × String)) (keys : List String) :
    List (String × String) :=
  m.filter (fun kv => !keys.contains kv.1)

/-- `MockEngine.matchesHeaders` on the unmarshalled header maps. -/
def matchesHeaders (cfg : MockCfg) (patterns : List (String → String))
    (recorded current : List (String × String)) : Bool :=
  let pair :=
    if cfg.matchingStrategy == "fuzzy" || cfg.matchingStrategy == "fuzzy-unordered" then
      (deleteKeys recorded dynamicHeaders, deleteKeys current dynamicHeaders)
    else
      (recorded, current)
  redactSensitiveData patterns (marshalHeaders pair.1) ==
    redactSensitiveData patterns (marshalHeaders pair.2)

/-- Literal-pattern `ReplaceAllString`: replace every occurrence of `pat`
in `s` by `rep` (structural, fuel = length of the subject). -/
def replaceAllAux (pat rep : List Char) : Nat → List Char → List Char
  | 0, cs => cs
  | _ + 1, [] => []
  | fuel + 1, c :: cs =>
    if (c :: cs).take pat.length = pat then
      rep ++ replaceAllAux pat rep fuel ((c :: cs).drop pat.length)
    else
      c :: replaceAllAux pat rep fuel cs

def goReplaceAll (s pat rep : String) : String :=
  ⟨replaceAllAux pat.data rep.data s.data.length s.data⟩

/-- The compiled form of a configured redact pattern
`Bearer secret123` (a literal regex): what
`pattern.ReplaceAllString(s, "[REDACTED]")` denotes. -/
def authPattern : String → String :=
  fun s => goReplaceAll s "Bearer secret123" "[REDACTED]"

/-- C6.  In mock mode the configured redaction patterns are NOT applied:
the engine is constructed with an empty pattern list, so a recorded
header stored as `[REDACTED]` fails to match a live request carrying the
real value — while the same comparison with the configured pattern
applied symmetrically (the spec's described behavior, and what
`matchesHeaders` computes when given the configured patterns) succeeds. -/
theorem matchesHeaders_redaction_bug :
    matchesHeaders ⟨"exact", []⟩ mockEngineRedactPatterns
      [("Authorization", "[REDACTED]")] [("Authorization", "Bearer secret123")] = false ∧
    matchesHeaders ⟨"exact", []⟩ [authPattern]
      [("Authorization", "[REDACTED]")] [("Authorization", "Bearer secret123")] = true := by
  constructor <;> decide

/-! ## Replay engine: response validation (replay/replay_engine.go)

Bodies are byte strings; `json.Unmarshal` into `interface{}` is the
parameter `parse` (`none` = invalid JSON); the Go `%T` of the resulting
value depends only on the top-level kind below. -/

/-- The `%T` kind of an unmarshalled JSON value: `<nil>`, `bool`,
`float64`, `string`, `[]interface …`, `map[string]interface …` — six
pairwise distinct strings, modelled as an enumeration. -/
inductive JKind where
  | knull | kbool | knum | kstr | karr | kobj
  deriving Repr, DecidableEq

def kindOf : Jv → JKind
  | .null => .knull
  | .boolv _ => .kbool
  | .num _ => .knum
  | .str _ => .kstr
  | .arr _ => .karr
  | .obj _ => .kobj

/-- The validation-relevant slice of `ReplayResult`. -/
structure ReplayResult where
  expectedStatus : Int
  actualStatus : Int
  expectedBody : String
  actualBody : String
  deriving Repr, DecidableEq

/-- `ReplayEngine.isJSON`: `json.Unmarshal(data, &js) == nil`. -/
def isJSON (parse : String → Option Jv) (data : String) : Bool :=
  (parse data).isSome

/-- `ReplayEngine.exactMatch`: status equal and body byte-equal. -/
def exactMatch (res : ReplayResult) : Bool × String :=
  if res.actualStatus ≠ res.expectedStatus then (false, "status mismatch")
  else if res.actualBody ≠ res.expectedBody then (false, "body mismatch")
  else (true, "")

/-- `ReplayEngine.fuzzyMatch`: status equal; when both bodies parse as
JSON, their top-level kinds must agree; otherwise pass. -/
def fuzzyMatch (parse : String → Option Jv) (res : ReplayResult) : Bool × String :=
  if res.actualStatus ≠ res.expectedStatus then (false, "status mismatch")
  else
    match parse res.expectedBody, parse res.actualBody with
    | some e, some a =>
      if kindOf e ≠ kindOf a then (false, "JSON structure mismatch") else (true, "")
    | _, _ => (true, "")

/-- `ReplayEngine.statusCodeMatch`: status equal only. -/
def statusCodeMatch (res : ReplayResult) : Bool × String :=
  if res.actualStatus ≠ res.expectedStatus then (false, "status mismatch")
  else (true, "")

/-- `ReplayEngine.validateResponse`: dispatch on the configured matching
strategy; anything unrecognized falls back to `exact`. -/
def validateResponse (parse : String → Option Jv) (strategy : String)
    (res : ReplayResult) : Bool × String :=
  match strategy with
  | "exact" => exactMatch res
  | "fuzzy" => fuzzyMatch parse res
  | "status_code" => statusCodeMatch res
  | _ => exactMatch res

/-- C7.  Validation succeeds under `exact` iff the statuses are equal and
the bodies byte-equal; under `status_code` iff the statuses are equal;
and under `fuzzy` iff the statuses are equal and, whenever both bodies
parse as JSON, the parsed values have the same top-level kind (non-JSON
or mixed bodies pass the body check). -/
theorem validateResponse_strategies (parse : String → Option Jv) (res : ReplayResult) :
    ((validateResponse parse "exact" res).1 = true ↔
      (res.actualStatus = res.expectedStatus ∧ res.actualBody = res.expectedBody)) ∧
    ((validateResponse parse "status_code" res).1 = true ↔
      res.actualStatus = res.expectedStatus) ∧
    ((validateResponse parse "fuzzy" res).1 = true ↔
      (res.actualStatus = res.expectedStatus ∧
        ∀ e a, parse res.expectedBody = some e → parse res.actualBody = some a →
          kindOf e = kindOf a)) := by
  refine ⟨?_, ?_, ?_⟩
  · show (exactMatch res).1 = true ↔ _
    rw [exactMatch]
    split_ifs with h1 h2 <;> simp_all
  · show (statusCodeMatch res).1 = true ↔ _
    rw [statusCodeMatch]
    split_ifs with h1 <;> simp_all
  · show (fuzzyMatch parse res).1 = true ↔ _
    rw [fuzzyMatch]
    split_ifs with h1
    · simp_all
    · cases he : parse res.expectedBody with
      | none => simp_all
      | some e =>
        cases ha : parse res.actualBody with
        | none => simp_all
        | some a =>
          by_cases hk : kindOf e = kindOf a <;> simp_all

/-! ## Replay engine: report aggregation (replay/replay_engine.go)

`ReplayEngine.Replay` aggregates: `TotalRequests` is the number of
interactions in the session; the sequential loop (`replaySequential`)
issues them in order, appends each result, and — with `fail_fast` — stops
after the first failing result; then `SuccessCount` counts successful
results and `FailureCount := TotalRequests - SuccessCount`.  The
per-interaction outcomes (what `replayInteraction` would return against
the live target, in order) are the input `outcomes`. -/

structure RResult where
  success : Bool
  validationError : String
  deriving Repr, DecidableEq

/-- `ReplayEngine.replaySequential` on the outcome list: collect results
in order; under `fail_fast`, return after appending the first failing
result (the `Bool` reports whether the run aborted with an error). -/
def replaySequentialResults (failFast : Bool) : List RResult → List RResult × Bool
  | [] => ([], false)
  | r :: rest =>
    if !r.success && failFast then ([r], true)
    else
      let p := replaySequentialResults failFast rest
      (r :: p.1, p.2)

def countSuccesses (rs : List RResult) : Nat := rs.countP (·.success)

structure ReplayReport where
  totalRequests : Nat
  successCount : Nat
  failureCount : Nat
  results : List RResult
  deriving Repr, DecidableEq

/-- The aggregation at the end of `ReplayEngine.Replay`. -/
def replayAggregate (failFast : Bool) (outcomes : List RResult) : ReplayReport :=
  let p := replaySequentialResults failFast outcomes
  { totalRequests := outcomes.length
    results := p.1
    successCount := countSuccesses p.1
    failureCount := outcomes.length - countSuccesses p.1 }

lemma replaySeq_no_failFast (outcomes : List RResult) :
    replaySequentialResults false outcomes = (outcomes, false) := by
  induction outcomes with
  | nil => rfl
  | cons r rest ih => simp [replaySequentialResults, ih]

lemma replaySeq_first_fail (outcomes : List RResult) :
    ∀ i, ∀ hi : i < outcomes.length,
      (∀ j, ∀ hj : j < i, outcomes[j].success = true) →
      outcomes[i].success = false →
      replaySequentialResults true outcomes = (outcomes.take (i + 1), true) := by
  induction outcomes with
  | nil =>
    intro i hi
    simp at hi
  | cons r rest ih =>
    intro i hi hprev hfail
    cases i with
    | zero =>
      simp only [List.getElem_cons_zero] at hfail
      simp [replaySequentialResults, hfail]
    | succ i' =>
      have hr : r.success = true := by
        have := hprev 0 (Nat.succ_pos _)
        simpa using this
      have hi' : i' < rest.length := Nat.lt_of_succ_lt_succ hi
      have hprev' : ∀ j, ∀ hj : j < i', rest[j].success = true := by
        intro j hj
        have := hprev (j + 1) (Nat.succ_lt_succ hj)
        simpa using this
      have hfail' : rest[i'].success = false := by
        simpa using hfail
      simp [replaySequentialResults, hr, ih i' hi' hprev' hfail']

lemma countSuccesses_take_first_fail (outcomes : List RResult) :
    ∀ i, ∀ hi : i < outcomes.length,
      (∀ j, ∀ hj : j < i, outcomes[j].success = true) →
      outcomes[i].success = false →
      countSuccesses (outcomes.take (i + 1)) = i := by
  induction outcomes with
  | nil =>
    intro i hi
    simp at hi
  | cons r rest ih =>
    intro i hi hprev hfail
    cases i with
    | zero =>
      simp only [List.getElem_cons_zero] at hfail
      simp [countSuccesses, hfail]
    | succ i' =>
      have hr : r.success = true := by
        have := hprev 0 (Nat.succ_pos _)
        simpa using this
      have hi' : i' < rest.length := Nat.lt_of_succ_lt_succ hi
      have hprev' : ∀ j, ∀ hj : j < i', rest[j].success = true := by
        intro j hj
        have := hprev (j + 1) (Nat.succ_lt_succ hj)
        simpa using this
      have hfail' : rest[i'].success = false := by
        simpa using hfail
      have := ih i' hi' hprev' hfail'
      simp [countSuccesses, List.countP_cons, hr] at this ⊢
      omega

/-- C10.  In the aggregated replay report `failure_count` always equals
`total_requests - success_count`; without `fail_fast` every interaction
is issued; and in sequential mode with `fail_fast` set, if the first
failing interaction sits at index `i`, then only the first `i + 1`
interactions are issued (the later ones never are), the unissued ones are
still counted in `failure_count = total - i`, and when interactions exist
after the failing one the results list is shorter than
`total_requests`. -/
theorem replayReport_counts (failFast : Bool) (outcomes : List RResult) :
    ((replayAggregate failFast outcomes).failureCount =
      (replayAggregate failFast outcomes).totalRequests -
        (replayAggregate failFast outcomes).successCount) ∧
    ((replayAggregate false outcomes).results = outcomes) ∧
    (∀ i, ∀ hi : i < outcomes.length,
      (∀ j, ∀ hj : j < i, outcomes[j].success = true) →
      outcomes[i].success = false →
      (replayAggregate true outcomes).results = outcomes.take (i + 1) ∧
      (replayAggregate true outcomes).successCount = i ∧
      (replayAggregate true outcomes).failureCount = outcomes.length - i ∧
      (i + 1 < outcomes.length →
        (replayAggregate true outcomes).results.length < outcomes.length)) := by
  refine ⟨rfl, ?_, ?_⟩
  · simp [replayAggregate, replaySeq_no_failFast]
  · intro i hi hprev hfail
    have hseq := replaySeq_first_fail outcomes i hi hprev hfail
    have hcount := countSuccesses_take_first_fail outcomes i hi hprev hfail
    refine ⟨?_, ?_, ?_, ?_⟩
    · simp [replayAggregate, hseq]
    · simp [replayAggregate, hseq, hcount]
    · simp [replayAggregate, hseq, hcount]
    · intro hlt
      simp only [replayAggregate, hseq, List.length_take]
      omega

def outcomesEx : List RResult :=
  [{ success := true, validationError := "" },
   { success := false, validationError := "status mismatch" },
   { success := true, validationError := "" }]

/-- Witness for C10: three outcomes with the first failure at index 1 —
two results collected, one success, failure count 2 of 3, and the results
list shorter than the total. -/
theorem replayReport_counts_witness :
    (replayAggregate true outcomesEx).results = outcomesEx.take 2 ∧
    (replayAggregate true outcomesEx).successCount = 1 ∧
    (replayAggregate true outcomesEx).failureCount = 3 - 1 ∧
    (1 + 1 < outcomesEx.length →
      (replayAggregate true outcomesEx).results.length < outcomesEx.length) := by
  have h := (replayReport_counts true outcomesEx).2.2 1 (by decide)
    (by
      intro j hj
      have hj0 : j = 0 := by omega
      subst hj0
      rfl)
    (by rfl)
  simpa using h

/-- Witness-style instantiation for C5's amended theorem (no hypotheses to
discharge; a concrete application). -/
theorem sendNotFound_fixed_witness :
    handleMockSelection [] 0 ⟨500, [("error", .str "gone")]⟩ =
      .inl (404, "application/json", [("error", .str "Recording not found")]) :=
  (sendNotFound_fixed ⟨500, [("error", .str "gone")]⟩ 0).1

/-- Concrete instantiation of C7. -/
theorem validateResponse_strategies_witness :
    (validateResponse (fun _ => none) "exact"
      { expectedStatus := 200, actualStatus := 200,
        expectedBody := "ok", actualBody := "ok" }).1 = true :=
  (validateResponse_strategies (fun _ => none)
    { expectedStatus := 200, actualStatus := 200,
      expectedBody := "ok", actualBody := "ok" }).1.2 ⟨rfl, rfl⟩

/-! ## SSE codec (proxy/sse_handler.go)

The stream is a byte sequence (`List Char`); `bufio.Reader.ReadBytes('\n')`
returns the bytes up to and including the first newline, or — at end of
input — the remaining bytes together with `io.EOF`.  Wall-clock
timestamps and `TimeDelta` are not modelled (they are read from the
clock, not from the stream). -/

/-- `unicode.IsSpace` on the ASCII range (what `strings.TrimSpace` /
`bytes.TrimSpace` strip here). -/
def goIsSpace (c : Char) : Bool :=
  c = ' ' || c = '\t' || c = '\n' || c = '\r' || c = Char.ofNat 11 || c = Char.ofNat 12

/-- `strings.TrimSpace` / `bytes.TrimSpace`. -/
def trimA (l : List Char) : List Char :=
  ((l.dropWhile goIsSpace).reverse.dropWhile goIsSpace).reverse

/-- `strings.Split(s, "\n")`. -/
def splitOnNl : List Char → List (List Char)
  | [] => [[]]
  | c :: cs =>
    if c = '\n' then [] :: splitOnNl cs
    else
      match splitOnNl cs with
      | [] => [[c]]
      | h :: t => (c :: h) :: t

/-- `strings.SplitN(line, ":", 2)`: `none` when the line has no colon,
otherwise the part before the first colon and everything after it. -/
def splitFirstColon : List Char → Option (List Char × List Char)
  | [] => none
  | c :: cs =>
    if c = ':' then some ([], cs)
    else (splitFirstColon cs).map (fun p => (c :: p.1, p.2))

def natOfDigits : List Char → Nat → Nat
  | [], acc => acc
  | c :: cs, acc => natOfDigits cs (acc * 10 + (c.toNat - '0'.toNat))

/-- `fmt.Sscanf(value, "%d", &n)` on an already-trimmed value: an optional
sign followed by at least one decimal digit parses (trailing bytes are
ignored); anything else leaves the target untouched. -/
def goSscanfInt (l : List Char) : Option Int :=
  let p : Int × List Char :=
    match l with
    | '-' :: r => (-1, r)
    | '+' :: r => (1, r)
    | _ => (1, l)
  let ds := p.2.takeWhile (fun c => c.isDigit)
  if ds.isEmpty then none else some (p.1 * (natOfDigits ds 0 : Int))

structure SSEEvent where
  event : List Char
  data : List Char
  id : List Char
  retry : Int
  deriving Repr, DecidableEq

/-- One iteration of the `ParseSSEEvent` line loop: trim the line; skip
blank lines, comment lines (leading `:`), lines without a colon, and
unrecognized field names; `event`/`id` set their field, `data`
accumulates with `\n` between repeats, `retry` parses an integer and is
left untouched when the value does not parse. -/
def processSSELine (ev : SSEEvent) (rawLine : List Char) : SSEEvent :=
  let line := trimA rawLine
  if line.isEmpty then ev
  else if line.head? = some ':' then ev
  else
    match splitFirstColon line with
    | none => ev
    | some (field, afterColon) =>
      let value := trimA afterColon
      if field = "event".data then { ev with event := value }
      else if field = "data".data then
        { ev with data := if ev.data ≠ [] then ev.data ++ '\n' :: value else value }
      else if field = "id".data then { ev with id := value }
      else if field = "retry".data then
        match goSscanfInt value with
        | some n => { ev with retry := n }
        | none => ev
      else ev

def emptySSEEvent : SSEEvent := { event := [], data := [], id := [], retry := 0 }

/-- The parsed form of a chunk's bytes. -/
def parseEv (data : List Char) : SSEEvent :=
  (splitOnNl data).foldl processSSELine emptySSEEvent

/-- `ParseSSEEvent`: split on newlines, process each line, and return the
event with a nil error — the function's error result exists only in its
signature. -/
def ParseSSEEvent (data : List Char) : Except String SSEEvent :=
  .ok (parseEv data)

/-- `bufio.Reader.ReadBytes('\n')`: (bytes read including the delimiter,
remaining input, EOF-before-delimiter flag). -/
def readBytesNL : List Char → List Char × List Char × Bool
  | [] => ([], [], true)
  | c :: cs =>
    if c = '\n' then ([c], cs, false)
    else
      let p := readBytesNL cs
      (c :: p.1, p.2.1, p.2.2)

/-- A captured SSE chunk: raw bytes and their parsed event (timestamp and
time delta are wall-clock data, outside the embedding). -/
structure SSEChunk where
  rawData : List Char
  event : SSEEvent
  deriving Repr, DecidableEq

inductive ReadErr where
  | eof
  | parseErr (msg : String)
  deriving Repr, DecidableEq

lemma readBytesNL_split (input : List Char) :
    (readBytesNL input).1 ++ (readBytesNL input).2.1 = input ∧
    ((readBytesNL input).2.2 = false → (readBytesNL input).1 ≠ []) := by
  induction input with
  | nil => simp [readBytesNL]
  | cons c cs ih =>
    by_cases hc : c = '\n'
    · simp [readBytesNL, hc]
    · simp only [readBytesNL, hc, if_false]
      exact ⟨by simpa using ih.1, by simp⟩

lemma readBytesNL_rest_lt {input : List Char}
    (h : (readBytesNL input).2.2 = false) :
    (readBytesNL input).2.1.length < input.length := by
  obtain ⟨hsplit, hne⟩ := readBytesNL_split input
  have hlen : (readBytesNL input).1.length + (readBytesNL input).2.1.length =
      input.length := by
    have := congrArg List.length hsplit
    rwa [List.length_append] at this
  have hpos : 0 < (readBytesNL input).1.length :=
    List.length_pos.2 (hne h)
  omega

/-- `SSEStreamReader.ReadChunk`: repeatedly `ReadBytes('\n')`.  On a read
error (EOF): yield the buffered bytes as a final chunk with the `io.EOF`
error when the buffer is non-empty (note: the bytes of the partial line
that `ReadBytes` returned alongside the error are NOT added to the
buffer), else propagate EOF.  Otherwise append the line to the buffer
and, when the line is blank after trimming and the buffer holds more than
one byte, yield the buffered chunk; else continue.  A chunk's event comes
from `ParseSSEEvent`; its error branch mirrors the code. -/
def readChunkLoop (input buffer : List Char) :
    Option SSEChunk × List Char × Option ReadErr :=
  if heof : (readBytesNL input).2.2 = true then
    if buffer ≠ [] then
      match ParseSSEEvent buffer with
      | .error m => (none, (readBytesNL input).2.1, some (.parseErr m))
      | .ok ev => (some ⟨buffer, ev⟩, (readBytesNL input).2.1, some .eof)
    else (none, (readBytesNL input).2.1, some .eof)
  else
    if (trimA (readBytesNL input).1).isEmpty &&
        decide ((buffer ++ (readBytesNL input).1).length > 1) then
      match ParseSSEEvent (buffer ++ (readBytesNL input).1) with
      | .error m => (none, (readBytesNL input).2.1, some (.parseErr m))
      | .ok ev =>
        (some ⟨buffer ++ (readBytesNL input).1, ev⟩, (readBytesNL input).2.1, none)
    else readChunkLoop (readBytesNL input).2.1 (buffer ++ (readBytesNL input).1)
termination_by input.length
decreasing_by
  exact readBytesNL_rest_lt (by simpa using heof)

/-- `SSEStreamReader.ReadAllChunks`: call `ReadChunk` until EOF; a final
chunk delivered together with `io.EOF` is still appended; any other error
stops the loop and is returned with the chunks collected so far.  (The
guard on the recursive call only supplies the termination measure; a
chunk committed without EOF always consumed input, see
`readChunkLoop_rest_lt`.) -/
def ReadAllChunks (input : List Char) : List SSEChunk × Option String :=
  match readChunkLoop input [] with
  | (some c, rest, none) =>
    if hlt : rest.length < input.length then
      let p := ReadAllChunks rest
      (c :: p.1, p.2)
    else ([c], none)
  | (some c, _, some .eof) => ([c], none)
  | (none, _, some .eof) => ([], none)
  | (_, _, some (.parseErr m)) => ([], some m)
  | (none, _, none) => ([], none)
termination_by input.length

lemma readChunkLoop_eof (input buffer : List Char)
    (h : (readBytesNL input).2.2 = true) :
    readChunkLoop input buffer =
      if buffer ≠ [] then
        (some ⟨buffer, parseEv buffer⟩, (readBytesNL input).2.1, some .eof)
      else (none, (readBytesNL input).2.1, some .eof) := by
  conv_lhs => unfold readChunkLoop
  rw [dif_pos h]
  rfl

lemma readChunkLoop_boundary (input buffer : List Char)
    (h : (readBytesNL input).2.2 = false)
    (hc : ((trimA (readBytesNL input).1).isEmpty &&
        decide ((buffer ++ (readBytesNL input).1).length > 1)) = true) :
    readChunkLoop input buffer =
      (some ⟨buffer ++ (readBytesNL input).1,
          parseEv (buffer ++ (readBytesNL input).1)⟩,
        (readBytesNL input).2.1, none) := by
  conv_lhs => unfold readChunkLoop
  rw [dif_neg (by simp [h]), if_pos hc]
  rfl

lemma readChunkLoop_continue (input buffer : List Char)
    (h : (readBytesNL input).2.2 = false)
    (hc : ((trimA (readBytesNL input).1).isEmpty &&
        decide ((buffer ++ (readBytesNL input).1).length > 1)) = false) :
    readChunkLoop input buffer =
      readChunkLoop (readBytesNL input).2.1 (buffer ++ (readBytesNL input).1) := by
  have hcond : ¬(((trimA (readBytesNL input).1).isEmpty &&
      decide ((buffer ++ (readBytesNL input).1).length > 1)) = true) := by
    rw [hc]
    decide
  conv_lhs => unfold readChunkLoop
  rw [dif_neg (by simp [h]), if_neg hcond]

lemma readChunkLoop_nil (buffer : List Char) (hb : buffer ≠ []) :
    readChunkLoop [] buffer = (some ⟨buffer, parseEv buffer⟩, [], some .eof) := by
  rw [readChunkLoop_eof [] buffer (by simp [readBytesNL]), if_pos hb]
  simp [readBytesNL]

lemma readChunkLoop_nil_nil :
    readChunkLoop [] [] = (none, [], some .eof) := by
  rw [readChunkLoop_eof [] [] (by simp [readBytesNL])]
  simp [readBytesNL]

lemma readAll_step {input : List Char} {c : SSEChunk} {rest : List Char}
    (h : readChunkLoop input [] = (some c, rest, none))
    (hlt : rest.length < input.length) :
    ReadAllChunks input = (c :: (ReadAllChunks rest).1, (ReadAllChunks rest).2) := by
  conv_lhs => unfold ReadAllChunks
  rw [h]
  simp [hlt]

lemma readAll_eof_chunk {input : List Char} {c : SSEChunk} {rest : List Char}
    (h : readChunkLoop input [] = (some c, rest, some .eof)) :
    ReadAllChunks input = ([c], none) := by
  conv_lhs => unfold ReadAllChunks
  rw [h]

lemma readAll_eof_none {input : List Char} {rest : List Char}
    (h : readChunkLoop input [] = (none, rest, some .eof)) :
    ReadAllChunks input = ([], none) := by
  conv_lhs => unfold ReadAllChunks
  rw [h]

lemma readAll_none_none {input : List Char} {rest : List Char}
    (h : readChunkLoop input [] = (none, rest, none)) :
    ReadAllChunks input = ([], none) := by
  conv_lhs => unfold ReadAllChunks
  rw [h]

lemma nl_mem_of_getLast {l : List Char} (h : l.getLast? = some '\n') : '\n' ∈ l := by
  induction l with
  | nil => simp at h
  | cons c cs ih =>
    cases cs with
    | nil =>
      simp only [List.getLast?_singleton, Option.some.injEq] at h
      simp [h]
    | cons d t =>
      rw [List.getLast?_cons_cons] at h
      exact List.mem_cons.2 (Or.inr (ih h))

lemma readBytesNL_eof_false {input : List Char} (h : '\n' ∈ input) :
    (readBytesNL input).2.2 = false := by
  induction input with
  | nil => simp at h
  | cons c cs ih =>
    by_cases hc : c = '\n'
    · simp [readBytesNL, hc]
    · simp only [readBytesNL, hc, if_false]
      rcases List.mem_cons.1 h with heq | hmem
      · exact absurd heq.symm hc
      · exact ih hmem

lemma readChunkLoop_concat :
    ∀ (n : Nat) (input buffer : List Char), input.length ≤ n →
      (input = [] ∨ input.getLast? = some '\n') →
      (buffer ≠ [] ∨ input ≠ []) →
      ∃ (raw rest : List Char) (e : Option ReadErr),
        readChunkLoop input buffer = (some ⟨raw, parseEv raw⟩, rest, e) ∧
        raw ++ rest = buffer ++ input ∧
        raw ≠ [] ∧
        (rest = [] ∨ rest.getLast? = some '\n') ∧
        ((e = some .eof ∧ rest = []) ∨ (e = none ∧ rest.length < input.length)) := by
  intro n
  induction n with
  | zero =>
    intro input buffer hle _ hne
    have hin : input = [] := List.eq_nil_of_length_eq_zero (Nat.le_zero.1 hle)
    subst hin
    have hb : buffer ≠ [] := by
      rcases hne with h | h
      · exact h
      · exact absurd rfl h
    exact ⟨buffer, [], some .eof, readChunkLoop_nil buffer hb, by simp, hb,
      Or.inl rfl, Or.inl ⟨rfl, rfl⟩⟩
  | succ n ih =>
    intro input buffer hle hterm hne
    by_cases hin : input = []
    · subst hin
      have hb : buffer ≠ [] := by
        rcases hne with h | h
        · exact h
        · exact absurd rfl h
      exact ⟨buffer, [], some .eof, readChunkLoop_nil buffer hb, by simp, hb,
        Or.inl rfl, Or.inl ⟨rfl, rfl⟩⟩
    · have hlast : input.getLast? = some '\n' := by
        rcases hterm with h | h
        · exact absurd h hin
        · exact h
      have heof : (readBytesNL input).2.2 = false :=
        readBytesNL_eof_false (nl_mem_of_getLast hlast)
      obtain ⟨hsplit, hlinene⟩ := readBytesNL_split input
      have hline : (readBytesNL input).1 ≠ [] := hlinene heof
      have hrestlt : (readBytesNL input).2.1.length < input.length :=
        readBytesNL_rest_lt heof
      have hrestterm : (readBytesNL input).2.1 = [] ∨
          (readBytesNL input).2.1.getLast? = some '\n' := by
        by_cases hr0 : (readBytesNL input).2.1 = []
        · exact Or.inl hr0
        · refine Or.inr ?_
          rw [← hsplit] at hlast
          rwa [List.getLast?_append_of_ne_nil (readBytesNL input).1 hr0] at hlast
      by_cases hcond : ((trimA (readBytesNL input).1).isEmpty &&
          decide ((buffer ++ (readBytesNL input).1).length > 1)) = true
      · refine ⟨buffer ++ (readBytesNL input).1, (readBytesNL input).2.1, none,
          readChunkLoop_boundary input buffer heof hcond, ?_, by simp [hline], hrestterm,
          Or.inr ⟨rfl, hrestlt⟩⟩
        rw [List.append_assoc, hsplit]
      · have hcond' : ((trimA (readBytesNL input).1).isEmpty &&
            decide ((buffer ++ (readBytesNL input).1).length > 1)) = false := by
          cases hb : ((trimA (readBytesNL input).1).isEmpty &&
              decide ((buffer ++ (readBytesNL input).1).length > 1)) with
          | false => rfl
          | true => exact absurd hb hcond
        rw [readChunkLoop_continue input buffer heof hcond']
        obtain ⟨raw, rest, e, hloop, hconcat, hrawne, hrterm, hecase⟩ :=
          ih (readBytesNL input).2.1 (buffer ++ (readBytesNL input).1)
            (by omega) hrestterm (Or.inl (by simp [hline]))
        refine ⟨raw, rest, e, hloop, ?_, hrawne, hrterm, ?_⟩
        · rw [hconcat, List.append_assoc, hsplit]
        · rcases hecase with h | ⟨he, hlt⟩
          · exact Or.inl h
          · exact Or.inr ⟨he, by omega⟩

lemma readChunkLoop_no_parseErr :
    ∀ (n : Nat) (input buffer : List Char), input.length ≤ n →
      (∀ m, (readChunkLoop input buffer).2.2 ≠ some (.parseErr m)) ∧
      ((readChunkLoop input buffer).2.2 = none →
        (readChunkLoop input buffer).2.1.length < input.length) := by
  intro n
  induction n with
  | zero =>
    intro input buffer hle
    have hin : input = [] := List.eq_nil_of_length_eq_zero (Nat.le_zero.1 hle)
    subst hin
    by_cases hb : buffer ≠ []
    · rw [readChunkLoop_nil buffer hb]
      exact ⟨fun m => by simp, fun h => by simp at h⟩
    · rw [not_not] at hb
      subst hb
      rw [readChunkLoop_nil_nil]
      exact ⟨fun m => by simp, fun h => by simp at h⟩
  | succ n ih =>
    intro input buffer hle
    by_cases heof : (readBytesNL input).2.2 = true
    · rw [readChunkLoop_eof input buffer heof]
      by_cases hb : buffer ≠ []
      · rw [if_pos hb]
        exact ⟨fun m => by simp, fun h => by simp at h⟩
      · rw [if_neg hb]
        exact ⟨fun m => by simp, fun h => by simp at h⟩
    · have heof' : (readBytesNL input).2.2 = false := by
        cases hb : (readBytesNL input).2.2 with
        | false => rfl
        | true => exact absurd hb heof
      have hrestlt : (readBytesNL input).2.1.length < input.length :=
        readBytesNL_rest_lt heof'
      by_cases hcond : ((trimA (readBytesNL input).1).isEmpty &&
          decide ((buffer ++ (readBytesNL input).1).length > 1)) = true
      · rw [readChunkLoop_boundary input buffer heof' hcond]
        exact ⟨fun m => by simp, fun _ => hrestlt⟩
      · have hcond' : ((trimA (readBytesNL input).1).isEmpty &&
            decide ((buffer ++ (readBytesNL input).1).length > 1)) = false := by
          cases hb : ((trimA (readBytesNL input).1).isEmpty &&
              decide ((buffer ++ (readBytesNL input).1).length > 1)) with
          | false => rfl
          | true => exact absurd hb hcond
        rw [readChunkLoop_continue input buffer heof' hcond']
        obtain ⟨h1, h2⟩ := ih (readBytesNL input).2.1 (buffer ++ (readBytesNL input).1)
          (by omega)
        exact ⟨h1, fun h => by have := h2 h; omega⟩

lemma readAllChunks_no_error :
    ∀ (n : Nat) (input : List Char), input.length ≤ n →
      (ReadAllChunks input).2 = none := by
  intro n
  induction n with
  | zero =>
    intro input hle
    have hin : input = [] := List.eq_nil_of_length_eq_zero (Nat.le_zero.1 hle)
    subst hin
    rw [readAll_eof_none readChunkLoop_nil_nil]
  | succ n ih =>
    intro input hle
    obtain ⟨hnoerr, hlt⟩ := readChunkLoop_no_parseErr (n + 1) input [] hle
    rcases hloop : readChunkLoop input [] with ⟨c?, rest, e⟩
    cases e with
    | none =>
      have hrest : rest.length < input.length := by
        have := hlt (by rw [hloop])
        rwa [hloop] at this
      cases c? with
      | some c =>
        rw [readAll_step hloop hrest]
        exact ih rest (by omega)
      | none => rw [readAll_none_none hloop]
    | some err =>
      cases err with
      | eof =>
        cases c? with
        | some c => rw [readAll_eof_chunk hloop]
        | none => rw [readAll_eof_none hloop]
      | parseErr m =>
        have := hnoerr m
        rw [hloop] at this
        simp at this

lemma readAll_concat_aux :
    ∀ (n : Nat) (input : List Char), input.length ≤ n →
      (input = [] ∨ input.getLast? = some '\n') →
      ∃ chunks : List SSEChunk,
        ReadAllChunks input = (chunks, none) ∧
        (chunks.map (·.rawData)).join = input ∧
        (∀ c ∈ chunks, c.event = parseEv c.rawData) ∧
        (input ≠ [] → chunks ≠ []) := by
  intro n
  induction n with
  | zero =>
    intro input hle _
    have hin : input = [] := List.eq_nil_of_length_eq_zero (Nat.le_zero.1 hle)
    subst hin
    exact ⟨[], readAll_eof_none readChunkLoop_nil_nil, by simp, by simp,
      fun h => absurd rfl h⟩
  | succ n ih =>
    intro input hle hterm
    by_cases hin : input = []
    · subst hin
      exact ⟨[], readAll_eof_none readChunkLoop_nil_nil, by simp, by simp,
        fun h => absurd rfl h⟩
    · obtain ⟨raw, rest, e, hloop, hconcat, hrawne, hrterm, hecase⟩ :=
        readChunkLoop_concat (n + 1) input [] hle hterm (Or.inr hin)
      rw [List.nil_append] at hconcat
      rcases hecase with ⟨he, hrest⟩ | ⟨he, hlt⟩
      · subst he
        subst hrest
        rw [List.append_nil] at hconcat
        subst hconcat
        refine ⟨[⟨raw, parseEv raw⟩], readAll_eof_chunk hloop, by simp, ?_, by simp⟩
        intro c hc
        rcases List.mem_singleton.1 hc with rfl
        rfl
      · subst he
        obtain ⟨chunks', hra, hjoin, hev, _⟩ := ih rest (by omega) hrterm
        refine ⟨⟨raw, parseEv raw⟩ :: chunks', ?_, ?_, ?_, by simp⟩
        · rw [readAll_step hloop hlt, hra]
        · simp only [List.map_cons, List.join_cons, hjoin]
          exact hconcat
        · intro c hc
          rcases List.mem_cons.1 hc with rfl | hc'
          · rfl
          · exact hev c hc'

/-- C8 (counterexample to the claim as stated).  The stream `data: b`
ends at EOF without a terminating blank line — and without a final
newline.  `ReadBytes` returns those bytes alongside `io.EOF`, but
`ReadChunk` consults only its own (empty) buffer and returns no chunk at
all, so `ReadAllChunks` yields the empty list: the final non-terminated
chunk is lost, not yielded. -/
theorem readAllChunks_counterexample :
    ReadAllChunks ("data: b".data) = ([], none) ∧ "data: b".data ≠ [] := by
  have h0 : readBytesNL ("data: b".data) = ("data: b".data, [], true) := by decide
  have h1 : readChunkLoop ("data: b".data) [] = (none, [], some .eof) := by
    rw [readChunkLoop_eof ("data: b".data) [] (by rw [h0])]
    simp [h0]
  exact ⟨readAll_eof_none h1, by decide⟩

/-- C8 (amended).  When the loop hits EOF while bytes sit in the chunk
buffer, `ReadChunk` still yields that buffered data as a final chunk
(raw bytes and parsed event) together with `io.EOF` — but the buffer only
ever holds complete, newline-terminated lines: the bytes of an
unterminated final line are returned by `ReadBytes` alongside the EOF
error and are discarded (see the counterexample).  Hence for every stream
whose lines are all newline-terminated — including streams whose tail
after the last blank line is a non-terminated (blank-line-less) chunk —
`ReadAllChunks` succeeds, loses no bytes (the concatenation of the raw
chunks is the stream), parses each chunk, and includes the final
non-terminated chunk as the last element. -/
theorem readAllChunks_final_chunk (input : List Char)
    (hterm : input = [] ∨ input.getLast? = some '\n') :
    (∀ buffer : List Char, buffer ≠ [] →
      readChunkLoop [] buffer = (some ⟨buffer, parseEv buffer⟩, [], some .eof)) ∧
    ∃ chunks : List SSEChunk,
      ReadAllChunks input = (chunks, none) ∧
      (chunks.map (·.rawData)).join = input ∧
      (∀ c ∈ chunks, c.event = parseEv c.rawData) ∧
      (input ≠ [] → chunks ≠ []) :=
  ⟨readChunkLoop_nil, readAll_concat_aux input.length input le_rfl hterm⟩

/-- Witness for C8 (amended): a stream with one blank-line-terminated
chunk followed by a newline-terminated but blank-line-less tail. -/
theorem readAllChunks_final_chunk_witness :
    (("data: a\n\ndata: b\n".data = [])
        ∨ ("data: a\n\ndata: b\n".data).getLast? = some '\n') ∧
    ((∀ buffer : List Char, buffer ≠ [] →
        readChunkLoop [] buffer = (some ⟨buffer, parseEv buffer⟩, [], some .eof)) ∧
      ∃ chunks : List SSEChunk,
        ReadAllChunks ("data: a\n\ndata: b\n".data) = (chunks, none) ∧
        (chunks.map (·.rawData)).join = "data: a\n\ndata: b\n".data ∧
        (∀ c ∈ chunks, c.event = parseEv c.rawData) ∧
        ("data: a\n\ndata: b\n".data ≠ [] → chunks ≠ [])) :=
  ⟨Or.inr (by decide),
   readAllChunks_final_chunk ("data: a\n\ndata: b\n".data) (Or.inr (by decide))⟩

/-- C9.  `ParseSSEEvent` never fails: it returns an event and a nil error
on every input; comment lines (leading `:`), lines without a colon, and
unrecognized field names leave the event untouched; a `retry` value that
does not parse as an integer leaves the retry field at its prior value
(zero in a fresh event); and consequently the error branches after
parsing — in `ReadChunk` and `ReadAllChunks` — are unreachable. -/
theorem parseSSEEvent_never_fails :
    (∀ data : List Char, ∃ ev, ParseSSEEvent data = .ok ev) ∧
    (∀ (ev : SSEEvent) (l : List Char), (trimA l).head? = some ':' →
      processSSELine ev l = ev) ∧
    (∀ (ev : SSEEvent) (l : List Char), splitFirstColon (trimA l) = none →
      processSSELine ev l = ev) ∧
    (∀ (ev : SSEEvent) (l field after : List Char),
      splitFirstColon (trimA l) = some (field, after) →
      field ≠ "event".data → field ≠ "data".data → field ≠ "id".data →
      field ≠ "retry".data → processSSELine ev l = ev) ∧
    (∀ (ev : SSEEvent) (l after : List Char),
      splitFirstColon (trimA l) = some ("retry".data, after) →
      goSscanfInt (trimA after) = none → processSSELine ev l = ev) ∧
    (∀ (input buffer : List Char) (m : String),
      (readChunkLoop input buffer).2.2 ≠ some (.parseErr m)) ∧
    (∀ input : List Char, (ReadAllChunks input).2 = none) := by
  refine ⟨fun d => ⟨parseEv d, rfl⟩, ?_, ?_, ?_, ?_,
    fun input buffer m =>
      (readChunkLoop_no_parseErr input.length input buffer le_rfl).1 m,
    fun input => readAllChunks_no_error input.length input le_rfl⟩
  · intro ev l h
    have hne : (trimA l).isEmpty = false := by
      cases htl : trimA l with
      | nil => rw [htl] at h; simp at h
      | cons c cs => simp
    simp only [processSSELine, hne, Bool.false_eq_true, if_false, h, if_pos]
  · intro ev l h
    simp only [processSSELine]
    by_cases h1 : (trimA l).isEmpty = true
    · rw [if_pos h1]
    · rw [if_neg h1]
      by_cases h2 : (trimA l).head? = some ':'
      · rw [if_pos h2]
      · rw [if_neg h2, h]
  · intro ev l field after h hf1 hf2 hf3 hf4
    simp only [processSSELine]
    by_cases h1 : (trimA l).isEmpty = true
    · rw [if_pos h1]
    · rw [if_neg h1]
      by_cases h2 : (trimA l).head? = some ':'
      · rw [if_pos h2]
      · rw [if_neg h2, h]
        simp [hf1, hf2, hf3, hf4]
  · intro ev l after h hparse
    simp only [processSSELine]
    by_cases h1 : (trimA l).isEmpty = true
    · rw [if_pos h1]
    · rw [if_neg h1]
      by_cases h2 : (trimA l).head? = some ':'
      · rw [if_pos h2]
      · rw [if_neg h2, h]
        simp [hparse]

/-- Witness for C9: concrete comment, colon-less, unknown-field and
bad-retry lines all leave the event untouched. -/
theorem parseSSEEvent_never_fails_witness :
    processSSELine emptySSEEvent (": comment".data) = emptySSEEvent ∧
    processSSELine emptySSEEvent ("nocolon".data) = emptySSEEvent ∧
    processSSELine emptySSEEvent ("foo: bar".data) = emptySSEEvent ∧
    processSSELine emptySSEEvent ("retry: abc".data) = emptySSEEvent :=
  ⟨parseSSEEvent_never_fails.2.1 emptySSEEvent (": comment".data) (by decide),
   parseSSEEvent_never_fails.2.2.1 emptySSEEvent ("nocolon".data) (by decide),
   parseSSEEvent_never_fails.2.2.2.1 emptySSEEvent ("foo: bar".data)
     "foo".data " bar".data (by decide) (by decide) (by decide) (by decide) (by decide),
   parseSSEEvent_never_fails.2.2.2.2.1 emptySSEEvent ("retry: abc".data)
     " abc".data (by decide) (by decide)⟩
